import Mathlib

/- Core Lean marks the rational-number field operations `@[irreducible]`,
which blocks `decide`-style evaluation of concrete spline builds; they are
ordinary computable definitions, so restore the default reducibility. -/
set_option allowUnsafeReducibility true in
attribute [semireducible] Rat.inv Rat.mul Rat.add Rat.sub Rat.div Rat.neg Rat.blt

/-!
# Verification of the `pyutils` cubic-spline core (`src/cubic_spline.py`)

This file gives a shallow embedding, over exact rationals, of the
`CubicSpline` class of `cubic_spline.py` (the non-uniform-capable variant;
the older uniform-only `CubicSpline.py` evaluator is embedded separately
where a claim refers to it), together with theorems settling the frozen
claims about its specification.

Machine floats are modelled by `ℚ`: every arithmetic operation performed by
the code is a field operation, so the exact-rational model is the ideal
semantics the spec's "within floating-point tolerance" phrases refer to.
`np.linalg.inv(mat) @ row` is modelled as the exact solution of the linear
system, which exists precisely when the matrix determinant is nonzero
(`np.linalg.inv` raises `LinAlgError` exactly on singular input); the
solution values are produced by Cramer's rule, which agrees with
`inv(mat) @ row` wherever the latter is defined.
-/

namespace CubicSpline

/-- Computable first-row Laplace expansion of the determinant (used so that
concrete builds can be evaluated by `decide`). -/
def detAux : (n : ℕ) → Matrix (Fin n) (Fin n) ℚ → ℚ
  | 0, _ => 1
  | n + 1, A =>
      ∑ j : Fin (n + 1),
        (-1 : ℚ) ^ (j : ℕ) * A 0 j * detAux n (A.submatrix Fin.succ j.succAbove)

theorem detAux_eq (n : ℕ) (A : Matrix (Fin n) (Fin n) ℚ) : detAux n A = A.det := by
  induction n with
  | zero => simp [detAux]
  | succ n ih =>
      rw [detAux, Matrix.det_succ_row_zero]
      exact Finset.sum_congr rfl fun j _ => by rw [ih]

/-- Exact linear solve, modelling `np.matmul(np.linalg.inv(mat), row)`
(line 98 of `cubic_spline.py`): fails iff the matrix is singular, and
otherwise returns the unique solution of `A·x = b` (via Cramer's rule,
which coincides with `inv(A) @ b`). -/
def solveLin (n : ℕ) (A : Matrix (Fin n) (Fin n) ℚ) (b : Fin n → ℚ) :
    Option (Fin n → ℚ) :=
  if detAux n A = 0 then none
  else some fun i => detAux n (A.updateColumn i b) / detAux n A

theorem solveLin_eq_some_iff (n : ℕ) (A : Matrix (Fin n) (Fin n) ℚ) (b : Fin n → ℚ) :
    (∃ x, solveLin n A b = some x) ↔ A.det ≠ 0 := by
  constructor
  · rintro ⟨x, hx⟩
    rw [solveLin] at hx
    split at hx
    · exact absurd hx (by simp)
    · rw [← detAux_eq]; assumption
  · intro h
    exact ⟨_, by rw [solveLin, if_neg (by rw [detAux_eq]; exact h)]⟩

theorem solveLin_isSome_of_det_ne_zero (n : ℕ) (A : Matrix (Fin n) (Fin n) ℚ)
    (b : Fin n → ℚ) (h : A.det ≠ 0) :
    solveLin n A b = some fun i => (A.updateColumn i b).det / A.det := by
  rw [solveLin, if_neg (by rw [detAux_eq]; exact h)]
  congr 1
  funext i
  rw [detAux_eq, detAux_eq]

/-- Soundness of the solve: a returned vector solves the system. -/
theorem solveLin_mulVec {n : ℕ} {A : Matrix (Fin n) (Fin n) ℚ} {b x : Fin n → ℚ}
    (h : solveLin n A b = some x) : A.mulVec x = b := by
  rw [solveLin] at h
  split at h
  · exact absurd h (by simp)
  · next hdet =>
    rw [detAux_eq] at hdet
    have hx : x = A.det⁻¹ • Matrix.cramer A b := by
      funext i
      have := congrArg (fun o => o.getD x) h
      simp only [Option.getD_some] at this
      rw [← this]
      simp [Matrix.cramer_apply, detAux_eq, div_eq_inv_mul]
    rw [hx, Matrix.mulVec_smul, Matrix.mulVec_cramer]
    funext i
    simp only [Pi.smul_apply, smul_eq_mul]
    field_simp

/-- The error taxonomy of spec §7, realised by the construction-time raises of
`cubic_spline.py`: `assert(len(distances) == self.N-1)` (line 55) is
`dimensionMismatch`; `raise ValueError('Unknown boundary condition type.')`
(line 85) is `invalidBoundaryCondition`; the two asserts of the `d_equal`
branch (lines 78-79, `assert(self.N > 3)` and `assert(self.uniform)`) are
`insufficientPoints`; a `LinAlgError` from `np.linalg.inv` (line 98) is
`singularMatrix`. -/
inductive SplineError where
  | invalidBoundaryCondition : SplineError
  | dimensionMismatch : SplineError
  | insufficientPoints : SplineError
  | singularMatrix : SplineError
deriving DecidableEq, Repr, Inhabited

/-- The state a constructed `CubicSpline` object retains (attributes set by
`__init__`, lines 45-110): point/dimension counts, the uniform flag, the
normalized spacings `dt`, the segment start offsets `t0`, and the
`(N-1) × M × 4` coefficient table. -/
structure Spline where
  N : ℕ
  M : ℕ
  uniform : Bool
  dt : List ℚ
  t0 : List ℚ
  coef : List (List (List ℚ))
deriving DecidableEq, Repr, Inhabited

/-- Column `d` of the point array (`points.T` iteration, line 61). -/
def column (points : List (List ℚ)) (d : ℕ) : List ℚ :=
  points.map fun r => r.getD d 0

/-- View a solution vector as a total function on `ℕ` (out-of-range indices,
never used by the code, default to 0). -/
def padFn (n : ℕ) (x : Fin n → ℚ) : ℕ → ℚ :=
  fun k => if h : k < n then x ⟨k, h⟩ else 0

/-- The `natural`, uniform system matrix (lines 66-71 endpoint rows and
lines 88-91 interior rows): row 0 is `[2, 1]`, the last row is `[1, 2]`,
interior row `i` is `[1, 4, 1]` at columns `i-1, i, i+1`. -/
def matNatU (N : ℕ) : Matrix (Fin N) (Fin N) ℚ :=
  Matrix.of fun i j =>
    if i.val = 0 then
      if j.val = 0 then 2 else if j.val = 1 then 1 else 0
    else if i.val = N - 1 then
      if j.val = N - 2 then 1 else if j.val = N - 1 then 2 else 0
    else
      if j.val = i.val - 1 then 1 else if j.val = i.val then 4
      else if j.val = i.val + 1 then 1 else 0

/-- The `natural`, uniform right-hand side (lines 70-71, 91). -/
def rowNatU (N : ℕ) (dim : List ℚ) : Fin N → ℚ :=
  fun i =>
    if i.val = 0 then 3 * (dim.getD 1 0 - dim.getD 0 0)
    else if i.val = N - 1 then 3 * (dim.getD (N - 1) 0 - dim.getD (N - 2) 0)
    else 3 * (dim.getD (i.val + 1) 0 - dim.getD (i.val - 1) 0)

/-- The `natural`, non-uniform system matrix (lines 72-76 endpoint rows and
lines 92-95 interior rows), with `h0 = 1/dt[i-1]`, `h1 = 1/dt[i]`. -/
def matNatNU (N : ℕ) (dtv : List ℚ) : Matrix (Fin N) (Fin N) ℚ :=
  Matrix.of fun i j =>
    if i.val = 0 then
      if j.val = 0 then 2 / dtv.getD 0 0 else if j.val = 1 then 1 / dtv.getD 0 0 else 0
    else if i.val = N - 1 then
      if j.val = N - 2 then 1 / dtv.getD (N - 2) 0
      else if j.val = N - 1 then 2 / dtv.getD (N - 2) 0 else 0
    else
      if j.val = i.val - 1 then 1 / dtv.getD (i.val - 1) 0
      else if j.val = i.val then 2 * (1 / dtv.getD (i.val - 1) 0 + 1 / dtv.getD i.val 0)
      else if j.val = i.val + 1 then 1 / dtv.getD i.val 0 else 0

/-- The `natural`, non-uniform right-hand side (lines 75-76, 96). -/
def rowNatNU (N : ℕ) (dtv : List ℚ) (dim : List ℚ) : Fin N → ℚ :=
  fun i =>
    if i.val = 0 then 3 * (dim.getD 1 0 - dim.getD 0 0) / (dtv.getD 0 0) ^ 2
    else if i.val = N - 1 then
      3 * (dim.getD (N - 1) 0 - dim.getD (N - 2) 0) / (dtv.getD (N - 2) 0) ^ 2
    else
      3 * (dim.getD i.val 0 - dim.getD (i.val - 1) 0) * (1 / dtv.getD (i.val - 1) 0) ^ 2 +
        3 * (dim.getD (i.val + 1) 0 - dim.getD i.val 0) * (1 / dtv.getD i.val 0) ^ 2

/-- The `d_equal` system matrix (lines 80-81 endpoint rows; interior rows are
the uniform `[1, 4, 1]` pattern since `d_equal` asserts uniform spacing):
row 0 is `[1, 0, -1]` at columns 0..2, the last row is `[-1, 0, 1]` at
columns N-3..N-1. -/
def matDEq (N : ℕ) : Matrix (Fin N) (Fin N) ℚ :=
  Matrix.of fun i j =>
    if i.val = 0 then
      if j.val = 0 then 1 else if j.val = 2 then -1 else 0
    else if i.val = N - 1 then
      if j.val = N - 3 then -1 else if j.val = N - 1 then 1 else 0
    else
      if j.val = i.val - 1 then 1 else if j.val = i.val then 4
      else if j.val = i.val + 1 then 1 else 0

/-- The `d_equal` right-hand side (lines 82-83, 91). -/
def rowDEq (N : ℕ) (dim : List ℚ) : Fin N → ℚ :=
  fun i =>
    if i.val = 0 then 4 * dim.getD 1 0 - 2 * dim.getD 0 0 - 2 * dim.getD 2 0
    else if i.val = N - 1 then
      2 * dim.getD (N - 1) 0 + 2 * dim.getD (N - 3) 0 - 4 * dim.getD (N - 2) 0
    else 3 * (dim.getD (i.val + 1) 0 - dim.getD (i.val - 1) 0)

/-- The per-dimension body of the constructor loop (lines 62-98): dispatch on
`bc_type` (raising for an unknown tag, line 85), run the `d_equal` asserts
(lines 78-79), assemble the system and solve it. -/
def solveDim (N : ℕ) (uniform : Bool) (dtv : List ℚ) (bc : String) (dim : List ℚ) :
    Except SplineError (Fin N → ℚ) :=
  if bc = "natural" then
    match solveLin N (if uniform then matNatU N else matNatNU N dtv)
        (if uniform then rowNatU N dim else rowNatNU N dtv dim) with
    | none => .error .singularMatrix
    | some x => .ok x
  else if bc = "d_equal" then
    if N ≤ 3 then .error .insufficientPoints
    else if uniform = false then .error .insufficientPoints
    else
      match solveLin N (matDEq N) (rowDEq N dim) with
      | none => .error .singularMatrix
      | some x => .ok x
  else .error .invalidBoundaryCondition

/-- The Hermite-style cubic coefficients of one dimension, one 4-list per
segment (lines 100-110). -/
def segCoefDim (N : ℕ) (uniform : Bool) (dtv : List ℚ) (dim : List ℚ) (dv : ℕ → ℚ) :
    List (List ℚ) :=
  (List.range (N - 1)).map fun i =>
    if uniform then
      [dim.getD i 0,
       dv i,
       3 * (dim.getD (i + 1) 0 - dim.getD i 0) - 2 * dv i - dv (i + 1),
       2 * (dim.getD i 0 - dim.getD (i + 1) 0) + dv i + dv (i + 1)]
    else
      [dim.getD i 0,
       dv i * dtv.getD i 0,
       3 * (dim.getD (i + 1) 0 - dim.getD i 0) - (2 * dv i + dv (i + 1)) * dtv.getD i 0,
       2 * (dim.getD i 0 - dim.getD (i + 1) 0) + (dv i + dv (i + 1)) * dtv.getD i 0]

/-- The `for i_d, dim in enumerate(points.T)` loop (line 61): process the
dimensions in order, propagating the first raise. -/
def buildDims (f : List ℚ → Except SplineError (List (List ℚ))) :
    List (List ℚ) → Except SplineError (List (List (List ℚ)))
  | [] => .ok []
  | d :: rest =>
    match f d with
    | .error e => .error e
    | .ok c =>
      match buildDims f rest with
      | .error e => .error e
      | .ok cs => .ok (c :: cs)

/-- Constructor body after the spacing handling (lines 57-110): normalize the
spacings (`dt`, line 57), derive the segment start offsets (`t0`, line 58,
`np.insert(np.cumsum(self.dt[:-1]), 0, 0)`), run the per-dimension loop and
assemble the coefficient table in segment-major layout. -/
def buildValid (points : List (List ℚ)) (ds : List ℚ) (uniform : Bool) (bc : String) :
    Except SplineError Spline :=
  let N := points.length
  let M := (points.getD 0 []).length
  let dtv := ds.map fun d => d / ds.sum
  let t0v := (List.range (N - 1)).map fun i => (dtv.take i).sum
  match buildDims
      (fun dim => (solveDim N uniform dtv bc dim).map
        fun x => segCoefDim N uniform dtv dim (padFn N x))
      ((List.range M).map fun d => column points d) with
  | .error e => .error e
  | .ok perDim =>
      .ok ⟨N, M, uniform, dtv, t0v,
        (List.range (N - 1)).map fun i => perDim.map fun c => c.getD i []⟩

/-- `CubicSpline.__init__` (lines 29-110) on an already two-dimensional point
array: the optional `distances` argument decides the uniform flag
(lines 51-56; `distances is None` means uniform, with `np.ones(N-1)` as the
spacing), and a supplied spacing of the wrong length is rejected
(`assert(len(distances) == self.N-1)`, line 55). -/
def build (points : List (List ℚ)) (distances : Option (List ℚ)) (bc : String) :
    Except SplineError Spline :=
  match distances with
  | none => buildValid points (List.replicate (points.length - 1) 1) true bc
  | some ds =>
      if ds.length = points.length - 1 then buildValid points ds false bc
      else .error .dimensionMismatch

/-- Rank-1 input handling (lines 46-47): a flat point list becomes an
`(N, 1)` array. -/
def build1 (points : List ℚ) (distances : Option (List ℚ)) (bc : String) :
    Except SplineError Spline :=
  build (points.map fun p => [p]) distances bc

/-- Segment localization (line 130):
`np.squeeze(np.argwhere(t_val >= self.t0)[-1])` — the last knot offset not
exceeding the query; `none` models the `IndexError` raised when no offset
qualifies (`t` below 0). -/
def locate (t0v : List ℚ) (t : ℚ) : Option ℕ :=
  ((List.range t0v.length).filter fun j => t0v.getD j 0 ≤ t).getLast?

/-- Evaluation of one query parameter: localize the segment, form the local
parameter `ti = (t - t0[i]) / dt[i]` (line 131) and evaluate the cubic in
each dimension (line 134), giving one `M`-vector. -/
def evalRow (s : Spline) (t : ℚ) : Option (List ℚ) :=
  match locate s.t0 t with
  | none => none
  | some i =>
      let u := (t - s.t0.getD i 0) / s.dt.getD i 0
      some ((s.coef.getD i []).map fun c =>
        c.getD 0 0 + c.getD 1 0 * u + c.getD 2 0 * u ^ 2 + c.getD 3 0 * u ^ 3)

/-- The argument shapes `fn` accepts (line 128): a bare scalar or an array. -/
inductive TIn where
  | scalar : ℚ → TIn
  | arr : List ℚ → TIn

/-- The result shapes `fn` can return (lines 134-138): a full `(n, M)` array,
a rank-1 array (after one collapse), or a bare scalar (after both). -/
inductive Res where
  | mat : List (List ℚ) → Res
  | vec : List ℚ → Res
  | scal : ℚ → Res
deriving DecidableEq, Repr

/-- `CubicSpline.fn` (lines 113-138): wrap a scalar query into a length-1
array (line 128), evaluate each query, then collapse the dimension axis when
`M == 1` (line 136) and collapse to a single point when the query array has
size 1 (line 137). -/
def fn (s : Spline) (tin : TIn) : Option Res :=
  let ts := match tin with | .scalar t => [t] | .arr l => l
  match ts.mapM (evalRow s) with
  | none => none
  | some rows =>
      if s.M = 1 then
        let col := rows.map fun r => r.getD 0 0
        if ts.length = 1 then some (.scal (col.getD 0 0)) else some (.vec col)
      else
        if ts.length = 1 then some (.vec (rows.getD 0 [])) else some (.mat rows)

/-- `np.linspace(0, 1, n)`: `n` evenly spaced values from 0 to 1 inclusive
(for `n = 1` numpy returns `[0.]`). -/
def linspace01 (n : ℕ) : List ℚ :=
  if n = 1 then [0] else (List.range n).map fun i : ℕ => (i : ℚ) / ((n : ℚ) - 1)

/-- `CubicSpline.interpolate` (lines 141-160): evaluate at `np.linspace(0,1,n)`
and return the points together with the parameter sequence. -/
def interpolate (s : Spline) (n : ℕ) : Option Res × List ℚ :=
  (fn s (.arr (linspace01 n)), linspace01 n)

/-- Segment localization of the older uniform-only variant
(`CubicSpline.py`, lines 98-108): scale by `N-1`, truncate to an integer
segment index and take the fractional part as the local parameter, then remap
the final point `i == N-1` to segment `N-2` with local parameter 1.
(`astype(int)` truncates toward zero, which agrees with the floor on the
nonnegative queries the claims quantify over.) -/
def fnOldIndex (N : ℕ) (t : ℚ) : ℕ × ℚ :=
  let tc := t * ((N : ℚ) - 1)
  let i := (Int.floor tc).toNat
  if i = N - 1 then (N - 2, 1) else (i, Int.fract tc)

/-- One evaluated point of the older variant's `fn` (line 110 of
`CubicSpline.py`). -/
def fnOldRow (s : Spline) (t : ℚ) : List ℚ :=
  let p := fnOldIndex s.N t
  (s.coef.getD p.1 []).map fun c =>
    c.getD 0 0 + c.getD 1 0 * p.2 + c.getD 2 0 * p.2 ^ 2 + c.getD 3 0 * p.2 ^ 3

/-- Spec §3 validity of the point sequence: at least two points, at least one
coordinate each, rectangular. -/
def ValidPoints (points : List (List ℚ)) : Prop :=
  2 ≤ points.length ∧ 1 ≤ (points.getD 0 []).length ∧
    ∀ r ∈ points, r.length = (points.getD 0 []).length

/-- Spec §3 validity of the optional spacing vector: when supplied, it has
`N-1` entries, all positive. -/
def ValidSpacing (points : List (List ℚ)) (distances : Option (List ℚ)) : Prop :=
  ∀ ds, distances = some ds → ds.length = points.length - 1 ∧ ∀ x ∈ ds, 0 < x

instance (points : List (List ℚ)) : Decidable (ValidPoints points) := by
  unfold ValidPoints; infer_instance

instance (points : List (List ℚ)) (distances : Option (List ℚ)) :
    Decidable (ValidSpacing points distances) := by
  unfold ValidSpacing
  cases distances with
  | none => exact .isTrue (by simp)
  | some ds =>
      rcases List.decidableBAll (fun x => 0 < x) ds with h | h
      · exact .isFalse fun hh => h ((hh ds rfl).2)
      · rcases Nat.decEq ds.length (points.length - 1) with hl | hl
        · exact .isFalse fun hh => hl ((hh ds rfl).1)
        · exact .isTrue (by rintro ds' ⟨rfl⟩; exact ⟨hl, h⟩)

instance : DecidableEq (Except SplineError Spline) := fun a b =>
  match a, b with
  | .ok x, .ok y => decidable_of_iff (x = y) (by simp)
  | .error x, .error y => decidable_of_iff (x = y) (by simp)
  | .ok _, .error _ => isFalse (by simp)
  | .error _, .ok _ => isFalse (by simp)

/-- The coefficient 4-list of segment `i`, dimension `d`. -/
def coefEntry (s : Spline) (i d : ℕ) : List ℚ :=
  (s.coef.getD i []).getD d []

/-- Derivative of a segment's cubic with respect to the *local* parameter. -/
def segDerivLocal (s : Spline) (i d : ℕ) (u : ℚ) : ℚ :=
  (coefEntry s i d).getD 1 0 + 2 * (coefEntry s i d).getD 2 0 * u +
    3 * (coefEntry s i d).getD 3 0 * u ^ 2

/-- The first-derivative of the curve with respect to the *global* parameter,
taken one-sidedly inside segment `i` at local position `u`: the local slope
scaled by the inverse segment length. -/
def segDerivGlobal (s : Spline) (i d : ℕ) (u : ℚ) : ℚ :=
  segDerivLocal s i d u / s.dt.getD i 0

/-- How `fn` presents a single evaluated point (the `M == 1` collapse of
line 136 composed with the size-1 collapse of line 137). -/
def pointRes (M : ℕ) (r : List ℚ) : Res :=
  if M = 1 then .scal (r.getD 0 0) else .vec r

/-! ### List-level helper lemmas -/

theorem getD_range_map {α : Type} (f : ℕ → α) (n i : ℕ) (h : i < n) (d : α) :
    ((List.range n).map f).getD i d = f i := by
  rw [List.getD_eq_getElem?_getD]
  rw [List.getElem?_eq_getElem (by simpa using h)]
  simp

theorem map_getD_range (r : List ℚ) :
    (List.range r.length).map (fun i => r.getD i 0) = r := by
  refine List.ext_getElem (by simp) ?_
  intro i h1 h2
  simp only [List.getElem_map, List.getElem_range]
  rw [List.getD_eq_getElem?_getD, List.getElem?_eq_getElem h2]
  simp

theorem getLast?_filter_range (n : ℕ) (p : ℕ → Bool) (i : ℕ) :
    ((List.range n).filter p).getLast? = some i ↔
      i < n ∧ p i = true ∧ ∀ j, i < j → j < n → p j = false := by
  induction n with
  | zero => simp [List.range_zero]
  | succ n ih =>
      rw [List.range_succ, List.filter_append]
      by_cases hp : p n = true
      · simp only [List.filter_cons, hp, if_pos, List.filter_nil]
        rw [List.getLast?_concat]
        constructor
        · rintro h
          have : i = n := by simpa using h.symm
          subst this
          exact ⟨Nat.lt_succ_self i, hp, fun j h1 h2 => absurd h2 (by omega)⟩
        · rintro ⟨h1, h2, h3⟩
          have : i = n := by
            by_contra hne
            have hin : i < n := by omega
            have := h3 n hin (Nat.lt_succ_self n)
            rw [hp] at this
            exact absurd this (by simp)
          subst this; rfl
      · have hp' : p n = false := by simpa using hp
        simp only [List.filter_cons, hp', List.filter_nil]
        have hnil : (if (false = true) then [n] else []) = ([] : List ℕ) := by simp
        rw [hnil, List.append_nil, ih]
        constructor
        · rintro ⟨h1, h2, h3⟩
          exact ⟨by omega, h2, fun j hj1 hj2 => by
            rcases Nat.lt_succ_iff_lt_or_eq.mp hj2 with h | h
            · exact h3 j hj1 h
            · subst h; exact hp'⟩
        · rintro ⟨h1, h2, h3⟩
          have hin : i ≠ n := by
            intro h; subst h; rw [h2] at hp'; exact absurd hp' (by simp)
          exact ⟨by omega, h2, fun j hj1 hj2 => h3 j hj1 (by omega)⟩

theorem sum_take_succ (v : List ℚ) (i : ℕ) (h : i < v.length) :
    (v.take (i + 1)).sum = (v.take i).sum + v.getD i 0 := by
  rw [List.take_succ, List.sum_append]
  rw [List.getElem?_eq_getElem h]
  rw [List.getD_eq_getElem?_getD, List.getElem?_eq_getElem h]
  simp

theorem sum_take_le_sum_take (v : List ℚ) (hpos : ∀ x ∈ v, 0 ≤ x) (i j : ℕ)
    (hij : i ≤ j) (hj : j ≤ v.length) : (v.take i).sum ≤ (v.take j).sum := by
  induction j with
  | zero =>
      have : i = 0 := by omega
      subst this
      exact le_refl _
  | succ j ihj =>
      rcases Nat.le_succ_iff.mp hij with h | h
      · calc (v.take i).sum ≤ (v.take j).sum := ihj h (by omega)
          _ ≤ (v.take (j + 1)).sum := by
              rw [sum_take_succ v j (by omega)]
              have : 0 ≤ v.getD j 0 := by
                rw [List.getD_eq_getElem?_getD, List.getElem?_eq_getElem (by omega)]
                exact hpos _ (List.getElem_mem _)
              linarith
      · subst h; exact le_refl _

theorem sum_take_lt_sum_take (v : List ℚ) (hpos : ∀ x ∈ v, 0 < x) (i j : ℕ)
    (hij : i < j) (hj : j ≤ v.length) : (v.take i).sum < (v.take j).sum := by
  have h1 : (v.take i).sum < (v.take (i + 1)).sum := by
    rw [sum_take_succ v i (by omega)]
    have : 0 < v.getD i 0 := by
      rw [List.getD_eq_getElem?_getD, List.getElem?_eq_getElem (by omega)]
      exact hpos _ (List.getElem_mem _)
    linarith
  calc (v.take i).sum < (v.take (i + 1)).sum := h1
    _ ≤ (v.take j).sum :=
        sum_take_le_sum_take v (fun x hx => le_of_lt (hpos x hx)) _ _ (by omega) hj

theorem sum_take_le_sum (v : List ℚ) (hpos : ∀ x ∈ v, 0 ≤ x) (i : ℕ) :
    (v.take i).sum ≤ v.sum := by
  have := List.sum_take_add_sum_drop v i
  have hd : 0 ≤ (v.drop i).sum :=
    List.sum_nonneg fun x hx => hpos x (List.mem_of_mem_drop hx)
  linarith

theorem sum_take_last (v : List ℚ) (h : v ≠ []) :
    (v.take (v.length - 1)).sum + v.getD (v.length - 1) 0 = v.sum := by
  have hl : 0 < v.length := List.length_pos.mpr h
  have := sum_take_succ v (v.length - 1) (by omega)
  rw [show v.length - 1 + 1 = v.length by omega, List.take_length] at this
  linarith

theorem buildDims_ok_iff (f : List ℚ → Except SplineError (List (List ℚ)))
    (l : List (List ℚ)) (ys : List (List (List ℚ))) :
    buildDims f l = .ok ys ↔ List.Forall₂ (fun a b => f a = .ok b) l ys := by
  induction l generalizing ys with
  | nil =>
      cases ys with
      | nil => simp [buildDims]
      | cons y ys => simp [buildDims]
  | cons d rest ih =>
      constructor
      · intro h
        rw [buildDims] at h
        cases hf : f d with
        | error e => rw [hf] at h; exact absurd h (by simp)
        | ok c =>
            rw [hf] at h
            cases hrest : buildDims f rest with
            | error e => rw [hrest] at h; exact absurd h (by simp)
            | ok cs =>
                rw [hrest] at h
                have : c :: cs = ys := by simpa using h
                subst this
                exact List.Forall₂.cons hf ((ih cs).mp hrest)
      · intro h
        cases h with
        | cons hfd hrest' => simp [buildDims, hfd, (ih _).mpr hrest']

theorem buildDims_error_head (f : List ℚ → Except SplineError (List (List ℚ)))
    (d : List ℚ) (rest : List (List ℚ)) (e : SplineError) (h : f d = .error e) :
    buildDims f (d :: rest) = .error e := by
  rw [buildDims, h]

theorem mapM_option_iff {α β : Type} (f : α → Option β) (l : List α) (ys : List β) :
    l.mapM f = some ys ↔ List.Forall₂ (fun a b => f a = some b) l ys := by
  rw [← List.mapM'_eq_mapM]
  induction l generalizing ys with
  | nil =>
      cases ys with
      | nil => simp [List.mapM']
      | cons y ys => simp [List.mapM']
  | cons a rest ih =>
      constructor
      · intro h
        rw [List.mapM'] at h
        cases hf : f a with
        | none => rw [hf] at h; exact absurd h (by simp)
        | some b =>
            rw [hf] at h
            cases hrest : List.mapM' f rest with
            | none => rw [hrest] at h; exact absurd h (by simp)
            | some bs =>
                rw [hrest] at h
                have : b :: bs = ys := by simpa using h
                subst this
                exact List.Forall₂.cons hf ((ih bs).mp hrest)
      · intro h
        cases h with
        | cons hfa hrest' => simp [List.mapM', hfa, (ih _).mpr hrest']

/-! ### Properties of successful builds -/

theorem buildValid_ok_fields {points : List (List ℚ)} {ds : List ℚ} {uniform : Bool}
    {bc : String} {s : Spline} (h : buildValid points ds uniform bc = .ok s) :
    s.N = points.length ∧ s.M = (points.getD 0 []).length ∧ s.uniform = uniform ∧
    s.dt = ds.map (fun x => x / ds.sum) ∧
    s.t0 = (List.range (points.length - 1)).map (fun i => (s.dt.take i).sum) := by
  rw [buildValid] at h
  cases hbd : buildDims
      (fun dim => (solveDim points.length uniform (ds.map fun x => x / ds.sum) bc dim).map
        fun x => segCoefDim points.length uniform (ds.map fun x => x / ds.sum) dim
          (padFn points.length x))
      ((List.range (points.getD 0 []).length).map fun d => column points d) with
  | error e => rw [hbd] at h; exact absurd h (by simp)
  | ok perDim =>
      rw [hbd] at h
      dsimp only at h
      rw [Except.ok.injEq] at h
      subst h
      refine ⟨rfl, rfl, rfl, rfl, rfl⟩

theorem buildValid_ok_coef {points : List (List ℚ)} {ds : List ℚ} {uniform : Bool}
    {bc : String} {s : Spline} (h : buildValid points ds uniform bc = .ok s) :
    ∃ perDim : List (List (List ℚ)),
      List.Forall₂
        (fun dim c =>
          (solveDim points.length uniform (ds.map fun x => x / ds.sum) bc dim).map
            (fun x => segCoefDim points.length uniform (ds.map fun x => x / ds.sum) dim
              (padFn points.length x)) = .ok c)
        ((List.range (points.getD 0 []).length).map fun d => column points d) perDim ∧
      s.coef = (List.range (points.length - 1)).map fun i => perDim.map fun c => c.getD i [] := by
  rw [buildValid] at h
  cases hbd : buildDims
      (fun dim => (solveDim points.length uniform (ds.map fun x => x / ds.sum) bc dim).map
        fun x => segCoefDim points.length uniform (ds.map fun x => x / ds.sum) dim
          (padFn points.length x))
      ((List.range (points.getD 0 []).length).map fun d => column points d) with
  | error e => rw [hbd] at h; exact absurd h (by simp)
  | ok perDim =>
      rw [hbd] at h
      dsimp only at h
      rw [Except.ok.injEq] at h
      subst h
      exact ⟨perDim, (buildDims_ok_iff _ _ _).mp hbd, rfl⟩

/-- A successful `build` ran `buildValid` on the spacing the constructor
chose (lines 51-56): `np.ones(N-1)` when `distances` was `None`, the supplied
vector (of checked length) otherwise. -/
theorem build_ok_elim {points : List (List ℚ)} {dists : Option (List ℚ)} {bc : String}
    {s : Spline} (hb : build points dists bc = .ok s) :
    (dists = none ∧
      buildValid points (List.replicate (points.length - 1) 1) true bc = .ok s) ∨
    (∃ ds, dists = some ds ∧ ds.length = points.length - 1 ∧
      buildValid points ds false bc = .ok s) := by
  cases dists with
  | none => exact Or.inl ⟨rfl, hb⟩
  | some ds =>
      rw [build] at hb
      by_cases hl : ds.length = points.length - 1
      · rw [if_pos hl] at hb
        exact Or.inr ⟨ds, rfl, hl, hb⟩
      · rw [if_neg hl] at hb
        exact absurd hb (by simp)

/-- Shape and content of the normalized spacing vector of a valid build:
`N-1` positive entries summing to 1. -/
theorem build_ok_dt {points : List (List ℚ)} {dists : Option (List ℚ)} {bc : String}
    {s : Spline} (hb : build points dists bc = .ok s)
    (hN : 2 ≤ points.length) (hsp : ValidSpacing points dists) :
    s.dt.length = points.length - 1 ∧ (∀ x ∈ s.dt, 0 < x) ∧ s.dt.sum = 1 := by
  have key : ∀ ds : List ℚ, ds.length = points.length - 1 → (∀ x ∈ ds, 0 < x) →
      (ds.map fun x => x / ds.sum).length = points.length - 1 ∧
      (∀ x ∈ ds.map fun x => x / ds.sum, 0 < x) ∧
      (ds.map fun x => x / ds.sum).sum = 1 := by
    intro ds hlen hpos
    have hsum : 0 < ds.sum := by
      have h0 : 0 < ds.length := by omega
      cases ds with
      | nil => simp at h0
      | cons a rest =>
          have ha : 0 < a := hpos a (by simp)
          have hrest : 0 ≤ rest.sum := List.sum_nonneg fun x hx => le_of_lt (hpos x (by simp [hx]))
          simp only [List.sum_cons]
          linarith
    refine ⟨by simpa using hlen, ?_, ?_⟩
    · intro x hx
      rcases List.mem_map.mp hx with ⟨y, hy, rfl⟩
      exact div_pos (hpos y hy) hsum
    · have key2 : ∀ l : List ℚ, (l.map fun x => x / ds.sum).sum = l.sum / ds.sum := by
        intro l
        induction l with
        | nil => simp
        | cons a rest ihl => simp [ihl, add_div]
      rw [key2, div_self (ne_of_gt hsum)]
  rcases build_ok_elim hb with ⟨rfl, hv⟩ | ⟨ds, rfl, hlen, hv⟩
  · obtain ⟨_, _, _, hdt, _⟩ := buildValid_ok_fields hv
    rw [hdt]
    refine key _ (by simp) ?_
    intro x hx
    have : x = 1 := List.eq_of_mem_replicate hx
    simp [this]
  · obtain ⟨_, _, _, hdt, _⟩ := buildValid_ok_fields hv
    rw [hdt]
    exact key _ hlen ((hsp ds rfl).2)

/-- Per-dimension access to the coefficient table of a successful build: the
solver succeeded on each dimension's system, and segment `i`'s 4-list for
dimension `d` is the Hermite formula applied to that dimension's solution. -/
theorem build_ok_spec {points : List (List ℚ)} {dists : Option (List ℚ)} {bc : String}
    {s : Spline} (hb : build points dists bc = .ok s) (d : ℕ) (hd : d < s.M) :
    ∃ x : Fin points.length → ℚ,
      solveDim points.length s.uniform s.dt bc (column points d) = .ok x ∧
      ∀ i, i < points.length - 1 →
        coefEntry s i d =
          (segCoefDim points.length s.uniform s.dt (column points d)
            (padFn points.length x)).getD i [] := by
  have main : ∀ (ds : List ℚ) (uniform : Bool),
      buildValid points ds uniform bc = .ok s →
      ∃ x : Fin points.length → ℚ,
        solveDim points.length s.uniform s.dt bc (column points d) = .ok x ∧
        ∀ i, i < points.length - 1 →
          coefEntry s i d =
            (segCoefDim points.length s.uniform s.dt (column points d)
              (padFn points.length x)).getD i [] := by
    intro ds uniform hv
    obtain ⟨hN, hM, hu, hdt, _⟩ := buildValid_ok_fields hv
    obtain ⟨perDim, hfa, hcoef⟩ := buildValid_ok_coef hv
    rw [List.forall₂_iff_get] at hfa
    obtain ⟨hlen, hget⟩ := hfa
    have hd' : d < (points.getD 0 []).length := by rw [← hM]; exact hd
    have hd1 : d < ((List.range (points.getD 0 []).length).map fun d => column points d).length := by
      simpa using hd'
    have hd2 : d < perDim.length := by rw [← hlen]; exact hd1
    have hgetd := hget d hd1 hd2
    have hcol : ((List.range (points.getD 0 []).length).map fun d => column points d).get
        ⟨d, hd1⟩ = column points d := by
      simp
    rw [hcol] at hgetd
    cases hsol : solveDim points.length uniform (ds.map fun x => x / ds.sum) bc
        (column points d) with
    | error e => rw [hsol] at hgetd; exact absurd hgetd (by simp [Except.map])
    | ok x =>
        rw [hsol] at hgetd
        have hpd : perDim.get ⟨d, hd2⟩ =
            segCoefDim points.length uniform (ds.map fun x => x / ds.sum)
              (column points d) (padFn points.length x) := by
          simpa [Except.map] using hgetd.symm
        refine ⟨x, ?_, ?_⟩
        · rw [hu, hdt]; exact hsol
        · intro i hi
          rw [coefEntry, hcoef, getD_range_map _ _ _ hi]
          rw [List.getD_eq_getElem?_getD, List.getElem?_eq_getElem (by simpa using hd2)]
          simp only [List.getElem_map, Option.getD_some]
          rw [hu, hdt, ← hpd, List.get_eq_getElem]
  rcases build_ok_elim hb with ⟨rfl, hv⟩ | ⟨ds, rfl, hlen, hv⟩
  · exact main _ true hv
  · exact main _ false hv

/-- Shape facts of a successful build: point/dimension counts, the `t0`
vector's content, and the coefficient table's dimensions. -/
theorem build_ok_fields {points : List (List ℚ)} {dists : Option (List ℚ)} {bc : String}
    {s : Spline} (hb : build points dists bc = .ok s) :
    s.N = points.length ∧ s.M = (points.getD 0 []).length ∧
    s.t0 = (List.range (points.length - 1)).map (fun i => (s.dt.take i).sum) ∧
    s.coef.length = points.length - 1 ∧
    ∀ i, i < points.length - 1 → (s.coef.getD i []).length = s.M := by
  have main : ∀ (ds : List ℚ) (uniform : Bool),
      buildValid points ds uniform bc = .ok s →
      s.N = points.length ∧ s.M = (points.getD 0 []).length ∧
      s.t0 = (List.range (points.length - 1)).map (fun i => (s.dt.take i).sum) ∧
      s.coef.length = points.length - 1 ∧
      ∀ i, i < points.length - 1 → (s.coef.getD i []).length = s.M := by
    intro ds uniform hv
    obtain ⟨hN, hM, hu, hdt, ht0⟩ := buildValid_ok_fields hv
    obtain ⟨perDim, hfa, hcoef⟩ := buildValid_ok_coef hv
    have hpdlen : perDim.length = (points.getD 0 []).length := by
      have := hfa.length_eq
      simpa using this.symm
    refine ⟨hN, hM, ht0, by rw [hcoef]; simp, ?_⟩
    intro i hi
    rw [hcoef, getD_range_map _ _ _ hi]
    rw [List.length_map, hpdlen, hM]
  rcases build_ok_elim hb with ⟨rfl, hv⟩ | ⟨ds, rfl, hlen, hv⟩
  · exact main _ true hv
  · exact main _ false hv

/-- What a successful per-dimension solve says: for `natural`, the solution
solves the (uniform or non-uniform) system; for `d_equal`, the asserts
passed and the solution solves the `d_equal` system. -/
theorem solveDim_ok_mulVec {N : ℕ} {uniform : Bool} {dtv : List ℚ} {bc : String}
    {dim : List ℚ} {x : Fin N → ℚ} (h : solveDim N uniform dtv bc dim = .ok x) :
    (bc = "natural" ∧
      (if uniform then matNatU N else matNatNU N dtv).mulVec x =
        (if uniform then rowNatU N dim else rowNatNU N dtv dim)) ∨
    (bc = "d_equal" ∧ 3 < N ∧ uniform = true ∧ (matDEq N).mulVec x = rowDEq N dim) := by
  rw [solveDim] at h
  by_cases hn : bc = "natural"
  · rw [if_pos hn] at h
    cases hsol : solveLin N (if uniform then matNatU N else matNatNU N dtv)
        (if uniform then rowNatU N dim else rowNatNU N dtv dim) with
    | none => rw [hsol] at h; exact absurd h (by simp)
    | some y =>
        rw [hsol] at h
        have : y = x := by simpa using h
        subst this
        exact Or.inl ⟨hn, solveLin_mulVec hsol⟩
  · rw [if_neg hn] at h
    by_cases hde : bc = "d_equal"
    · rw [if_pos hde] at h
      by_cases h3 : N ≤ 3
      · rw [if_pos h3] at h; exact absurd h (by simp)
      · rw [if_neg h3] at h
        by_cases huni : uniform = false
        · rw [if_pos huni] at h; exact absurd h (by simp)
        · rw [if_neg huni] at h
          cases hsol : solveLin N (matDEq N) (rowDEq N dim) with
          | none => rw [hsol] at h; exact absurd h (by simp)
          | some y =>
              rw [hsol] at h
              have : y = x := by simpa using h
              subst this
              exact Or.inr ⟨hde, by omega, by simpa using huni, solveLin_mulVec hsol⟩
    · rw [if_neg hde] at h
      exact absurd h (by simp)

/-! ### Segment localization facts -/

theorem t0_length {points : List (List ℚ)} {dists : Option (List ℚ)} {bc : String}
    {s : Spline} (hb : build points dists bc = .ok s) :
    s.t0.length = points.length - 1 := by
  obtain ⟨_, _, ht0, _, _⟩ := build_ok_fields hb
  rw [ht0]; simp

theorem t0_getD {points : List (List ℚ)} {dists : Option (List ℚ)} {bc : String}
    {s : Spline} (hb : build points dists bc = .ok s) (j : ℕ)
    (hj : j < points.length - 1) : s.t0.getD j 0 = (s.dt.take j).sum := by
  obtain ⟨_, _, ht0, _, _⟩ := build_ok_fields hb
  rw [ht0, getD_range_map _ _ _ hj]

/-- At `t = 0` the search of line 130 selects segment 0. -/
theorem locate_zero {points : List (List ℚ)} {dists : Option (List ℚ)} {bc : String}
    {s : Spline} (hb : build points dists bc = .ok s)
    (hN : 2 ≤ points.length) (hsp : ValidSpacing points dists) :
    locate s.t0 0 = some 0 := by
  obtain ⟨hdtlen, hdtpos, hdtsum⟩ := build_ok_dt hb hN hsp
  rw [locate, getLast?_filter_range]
  refine ⟨?_, ?_, ?_⟩
  · rw [t0_length hb]; omega
  · rw [decide_eq_true_eq, t0_getD hb 0 (by omega)]
    simp
  · intro j hj0 hjlen
    rw [t0_length hb] at hjlen
    rw [decide_eq_false_iff_not, t0_getD hb j hjlen, not_le]
    have := sum_take_lt_sum_take s.dt hdtpos 0 j hj0 (by omega)
    simpa using this

/-- At `t = 1` the search of line 130 selects the last segment, `N - 2`. -/
theorem locate_one {points : List (List ℚ)} {dists : Option (List ℚ)} {bc : String}
    {s : Spline} (hb : build points dists bc = .ok s)
    (hN : 2 ≤ points.length) (hsp : ValidSpacing points dists) :
    locate s.t0 1 = some (points.length - 2) := by
  obtain ⟨hdtlen, hdtpos, hdtsum⟩ := build_ok_dt hb hN hsp
  rw [locate, getLast?_filter_range]
  refine ⟨?_, ?_, ?_⟩
  · rw [t0_length hb]; omega
  · rw [decide_eq_true_eq, t0_getD hb _ (by omega)]
    rw [← hdtsum]
    exact sum_take_le_sum s.dt (fun x hx => le_of_lt (hdtpos x hx)) _
  · intro j hj0 hjlen
    rw [t0_length hb] at hjlen
    omega

/-- At an interior knot's offset the search selects exactly that segment. -/
theorem locate_knot {points : List (List ℚ)} {dists : Option (List ℚ)} {bc : String}
    {s : Spline} (hb : build points dists bc = .ok s)
    (hN : 2 ≤ points.length) (hsp : ValidSpacing points dists)
    (i : ℕ) (hi : i < points.length - 1) :
    locate s.t0 ((s.dt.take i).sum) = some i := by
  obtain ⟨hdtlen, hdtpos, hdtsum⟩ := build_ok_dt hb hN hsp
  rw [locate, getLast?_filter_range]
  refine ⟨?_, ?_, ?_⟩
  · rw [t0_length hb]; omega
  · rw [decide_eq_true_eq, t0_getD hb i hi]
  · intro j hj0 hjlen
    rw [t0_length hb] at hjlen
    rw [decide_eq_false_iff_not, t0_getD hb j hjlen, not_le]
    exact sum_take_lt_sum_take s.dt hdtpos i j hj0 (by omega)

/-- The search never yields an out-of-range segment index: a located index is
below the number of segments. -/
theorem locate_lt_length {v : List ℚ} {t : ℚ} {i : ℕ} (h : locate v t = some i) :
    i < v.length := by
  rw [locate, getLast?_filter_range] at h
  exact h.1

/-- For a nonnegative query the search always succeeds. -/
theorem locate_some_of_nonneg {points : List (List ℚ)} {dists : Option (List ℚ)}
    {bc : String} {s : Spline} (hb : build points dists bc = .ok s)
    (hN : 2 ≤ points.length) {t : ℚ} (ht : 0 ≤ t) :
    ∃ i, locate s.t0 t = some i := by
  have hne : ((List.range s.t0.length).filter fun j => decide (s.t0.getD j 0 ≤ t)) ≠ [] := by
    intro hnil
    have h0 : 0 ∈ (List.range s.t0.length).filter fun j => decide (s.t0.getD j 0 ≤ t) := by
      rw [List.mem_filter]
      refine ⟨?_, ?_⟩
      · rw [List.mem_range, t0_length hb]; omega
      · rw [decide_eq_true_eq, t0_getD hb 0 (by rw [t0_length hb] at *; omega)]
        simpa using ht
    rw [hnil] at h0
    exact absurd h0 (by simp)
  rw [locate]
  exact ⟨_, List.getLast?_eq_getLast _ hne⟩

/-! ### Values of the evaluated curve -/

theorem column_getD (points : List (List ℚ)) (d k : ℕ) (hk : k < points.length) :
    (column points d).getD k 0 = (points.getD k []).getD d 0 := by
  rw [column, List.getD_eq_getElem?_getD, List.getElem?_eq_getElem (by simpa using hk)]
  rw [List.getElem_map]
  rw [List.getD_eq_getElem?_getD points, List.getElem?_eq_getElem hk]
  simp

theorem getD_mem_of_lt {points : List (List ℚ)} {k : ℕ} (hk : k < points.length) :
    points.getD k [] ∈ points := by
  rw [List.getD_eq_getElem?_getD, List.getElem?_eq_getElem hk]
  exact List.getElem_mem _

/-- The explicit 4-lists of Hermite coefficients of all segments of one
dimension of any successful build, in terms of that dimension's slope
solution `dv`. -/
theorem coefEntry_formula {points : List (List ℚ)} {dists : Option (List ℚ)} {bc : String}
    {s : Spline} (hb : build points dists bc = .ok s) (d : ℕ) (hd : d < s.M) :
    ∃ dv : ℕ → ℚ, ∀ i, i < points.length - 1 →
      (coefEntry s i d =
        if s.uniform then
          [(column points d).getD i 0,
           dv i,
           3 * ((column points d).getD (i + 1) 0 - (column points d).getD i 0) -
             2 * dv i - dv (i + 1),
           2 * ((column points d).getD i 0 - (column points d).getD (i + 1) 0) +
             dv i + dv (i + 1)]
        else
          [(column points d).getD i 0,
           dv i * s.dt.getD i 0,
           3 * ((column points d).getD (i + 1) 0 - (column points d).getD i 0) -
             (2 * dv i + dv (i + 1)) * s.dt.getD i 0,
           2 * ((column points d).getD i 0 - (column points d).getD (i + 1) 0) +
             (dv i + dv (i + 1)) * s.dt.getD i 0]) := by
  obtain ⟨x, hsol, hcoef⟩ := build_ok_spec hb d hd
  refine ⟨padFn points.length x, ?_⟩
  intro i hi
  rw [hcoef i hi, segCoefDim, getD_range_map _ _ _ hi]

/-- `c0` of any segment is the segment's start point (per dimension). -/
theorem coefEntry_c0 {points : List (List ℚ)} {dists : Option (List ℚ)} {bc : String}
    {s : Spline} (hb : build points dists bc = .ok s) (d : ℕ) (hd : d < s.M)
    (i : ℕ) (hi : i < points.length - 1) :
    (coefEntry s i d).getD 0 0 = (column points d).getD i 0 := by
  obtain ⟨dv, hf⟩ := coefEntry_formula hb d hd
  rw [hf i hi]
  cases s.uniform <;> simp

/-- `c0 + c1 + c2 + c3` of any segment is the segment's end point. -/
theorem coefEntry_sum {points : List (List ℚ)} {dists : Option (List ℚ)} {bc : String}
    {s : Spline} (hb : build points dists bc = .ok s) (d : ℕ) (hd : d < s.M)
    (i : ℕ) (hi : i < points.length - 1) :
    (coefEntry s i d).getD 0 0 + (coefEntry s i d).getD 1 0 +
      (coefEntry s i d).getD 2 0 + (coefEntry s i d).getD 3 0 =
      (column points d).getD (i + 1) 0 := by
  obtain ⟨dv, hf⟩ := coefEntry_formula hb d hd
  rw [hf i hi]
  cases s.uniform <;> (simp; ring)

/-- Generic evaluation lemma at the coefficient-row level: if segment `i`'s
cubic takes the value of point row `k` at local parameter `u` (per
dimension), mapping the cubic over segment `i`'s coefficient row gives point
row `k`. -/
theorem coefRow_eval_eq_point {points : List (List ℚ)} {dists : Option (List ℚ)}
    {bc : String} {s : Spline} (hb : build points dists bc = .ok s)
    (hv : ValidPoints points) (u : ℚ) (i k : ℕ) (hk : k < points.length)
    (hi : i < points.length - 1)
    (hval : ∀ d, d < s.M →
      (coefEntry s i d).getD 0 0 + (coefEntry s i d).getD 1 0 * u +
        (coefEntry s i d).getD 2 0 * u ^ 2 + (coefEntry s i d).getD 3 0 * u ^ 3 =
        (points.getD k []).getD d 0) :
    (s.coef.getD i []).map (fun c =>
        c.getD 0 0 + c.getD 1 0 * u + c.getD 2 0 * u ^ 2 + c.getD 3 0 * u ^ 3) =
      points.getD k [] := by
  obtain ⟨hN, hM, ht0, hclen, hrowlen⟩ := build_ok_fields hb
  have hlen1 : (s.coef.getD i []).length = s.M := hrowlen i hi
  have hlen2 : (points.getD k []).length = (points.getD 0 []).length :=
    hv.2.2 _ (getD_mem_of_lt hk)
  apply List.ext_getElem
  · rw [List.length_map, hlen1, hlen2, hM]
  · intro d h1 h2
    have hd : d < s.M := by
      have h1' := h1
      rw [List.length_map, hlen1] at h1'
      exact h1'
    rw [List.getElem_map]
    have hd1 : d < (s.coef.getD i []).length := by rw [hlen1]; exact hd
    have e1 : coefEntry s i d = (s.coef.getD i [])[d] := by
      rw [coefEntry, List.getD_eq_getElem?_getD, List.getElem?_eq_getElem hd1]
      simp
    rw [← e1]
    exact (hval d hd).trans (List.getD_eq_getElem _ 0 h2)

/-- Generic evaluation lemma: if the search localizes `t` to segment `i` and
the segment's cubic takes the value of point row `k` there (per dimension),
the evaluated row is point row `k`. -/
theorem evalRow_eq_point {points : List (List ℚ)} {dists : Option (List ℚ)} {bc : String}
    {s : Spline} (hb : build points dists bc = .ok s) (hv : ValidPoints points)
    (t u : ℚ) (i k : ℕ) (hk : k < points.length)
    (hl : locate s.t0 t = some i)
    (hu : (t - s.t0.getD i 0) / s.dt.getD i 0 = u)
    (hval : ∀ d, d < s.M →
      (coefEntry s i d).getD 0 0 + (coefEntry s i d).getD 1 0 * u +
        (coefEntry s i d).getD 2 0 * u ^ 2 + (coefEntry s i d).getD 3 0 * u ^ 3 =
        (points.getD k []).getD d 0) :
    evalRow s t = some (points.getD k []) := by
  have hi : i < points.length - 1 := by
    have := locate_lt_length hl
    rw [t0_length hb] at this
    exact this
  rw [evalRow, hl]
  refine congrArg some ?_
  rw [hu]
  exact coefRow_eval_eq_point hb hv u i k hk hi hval

/-- `evaluate(0)` reproduces the first input point (as the raw row). -/
theorem evalRow_zero {points : List (List ℚ)} {dists : Option (List ℚ)} {bc : String}
    {s : Spline} (hb : build points dists bc = .ok s) (hv : ValidPoints points)
    (hsp : ValidSpacing points dists) :
    evalRow s 0 = some (points.getD 0 []) := by
  have hN := hv.1
  refine evalRow_eq_point hb hv 0 0 0 0 (by omega) (locate_zero hb hN hsp) ?_ ?_
  · rw [t0_getD hb 0 (by omega)]
    simp
  · intro d hd
    rw [coefEntry_c0 hb d hd 0 (by omega), column_getD points d 0 (by omega)]
    ring

/-- `evaluate(1)` reproduces the last input point (as the raw row). -/
theorem evalRow_one {points : List (List ℚ)} {dists : Option (List ℚ)} {bc : String}
    {s : Spline} (hb : build points dists bc = .ok s) (hv : ValidPoints points)
    (hsp : ValidSpacing points dists) :
    evalRow s 1 = some (points.getD (points.length - 1) []) := by
  have hN := hv.1
  obtain ⟨hdtlen, hdtpos, hdtsum⟩ := build_ok_dt hb hN hsp
  have hlast : (s.dt.take (points.length - 2)).sum + s.dt.getD (points.length - 2) 0 = 1 := by
    have hne : s.dt ≠ [] := by
      intro h
      rw [h] at hdtlen
      simp at hdtlen
      omega
    have := sum_take_last s.dt hne
    rw [hdtlen] at this
    rw [show points.length - 1 - 1 = points.length - 2 by omega] at this
    rw [this, hdtsum]
  have hpos2 : 0 < s.dt.getD (points.length - 2) 0 := by
    have hmem : s.dt.getD (points.length - 2) 0 ∈ s.dt := by
      rw [List.getD_eq_getElem?_getD, List.getElem?_eq_getElem (by omega)]
      exact List.getElem_mem _
    exact hdtpos _ hmem
  refine evalRow_eq_point hb hv 1 1 (points.length - 2) (points.length - 1)
    (by omega) (locate_one hb hN hsp) ?_ ?_
  · rw [t0_getD hb _ (by omega)]
    rw [show (1 : ℚ) - (s.dt.take (points.length - 2)).sum = s.dt.getD (points.length - 2) 0 by
      linarith]
    exact div_self (ne_of_gt hpos2)
  · intro d hd
    have := coefEntry_sum hb d hd (points.length - 2) (by omega)
    rw [show points.length - 2 + 1 = points.length - 1 by omega] at this
    rw [column_getD points d _ (by omega)] at this
    rw [← this]
    ring

/-- `evaluate` at the `i`-th knot offset reproduces `points[i]` (raw row). -/
theorem evalRow_knot {points : List (List ℚ)} {dists : Option (List ℚ)} {bc : String}
    {s : Spline} (hb : build points dists bc = .ok s) (hv : ValidPoints points)
    (hsp : ValidSpacing points dists) (i : ℕ) (hi : i < points.length - 1) :
    evalRow s ((s.dt.take i).sum) = some (points.getD i []) := by
  have hN := hv.1
  refine evalRow_eq_point hb hv ((s.dt.take i).sum) 0 i i
    (by omega) (locate_knot hb hN hsp i hi) ?_ ?_
  · rw [t0_getD hb i hi]
    simp
  · intro d hd
    rw [coefEntry_c0 hb d hd i hi, column_getD points d i (by omega)]
    ring

/-- A scalar query's result is the collapsed presentation of the single
evaluated row (lines 128, 136-137). -/
theorem fn_scalar {s : Spline} {t : ℚ} {r : List ℚ} (h : evalRow s t = some r) :
    fn s (.scalar t) = some (pointRes s.M r) := by
  rw [fn]
  have hmap : [t].mapM (evalRow s) = some [r] := by
    simp [List.mapM.loop, List.mapM, h]
  dsimp only
  rw [hmap]
  by_cases hM : s.M = 1
  · simp [pointRes, hM]
  · simp [pointRes, hM]

/-- The older variant's index map at `t = 0`. -/
theorem fnOldIndex_zero (N : ℕ) (hN : 2 ≤ N) : fnOldIndex N 0 = (0, 0) := by
  rw [fnOldIndex]
  simp only [zero_mul, Int.floor_zero, Int.toNat_zero, Int.fract_zero]
  rw [if_neg (by omega)]

/-- The older variant's index map at `t = 1`: the final-point remap of
lines 106-108 of `CubicSpline.py` sends it to segment `N-2` with local
parameter 1. -/
theorem fnOldIndex_one (N : ℕ) (hN : 2 ≤ N) : fnOldIndex N 1 = (N - 2, 1) := by
  rw [fnOldIndex]
  have hc : (1 : ℚ) * ((N : ℚ) - 1) = ((N - 1 : ℕ) : ℚ) := by
    rw [Nat.cast_sub (by omega)]
    ring
  rw [hc, Int.floor_natCast]
  simp

/-- The older variant's evaluation at `t = 0` returns the first point. -/
theorem fnOldRow_zero {points : List (List ℚ)} {dists : Option (List ℚ)} {bc : String}
    {s : Spline} (hb : build points dists bc = .ok s) (hv : ValidPoints points) :
    fnOldRow s 0 = points.getD 0 [] := by
  obtain ⟨hN, hM, ht0, hclen, hrowlen⟩ := build_ok_fields hb
  have hN2 : 2 ≤ points.length := hv.1
  rw [fnOldRow, hN, fnOldIndex_zero _ hN2]
  refine coefRow_eval_eq_point hb hv 0 0 0 (by omega) (by omega) ?_
  intro d hd
  rw [coefEntry_c0 hb d hd 0 (by omega), column_getD points d 0 (by omega)]
  ring

/-- The older variant's evaluation at `t = 1` returns the last point. -/
theorem fnOldRow_one {points : List (List ℚ)} {dists : Option (List ℚ)} {bc : String}
    {s : Spline} (hb : build points dists bc = .ok s) (hv : ValidPoints points) :
    fnOldRow s 1 = points.getD (points.length - 1) [] := by
  obtain ⟨hN, hM, ht0, hclen, hrowlen⟩ := build_ok_fields hb
  have hN2 : 2 ≤ points.length := hv.1
  rw [fnOldRow, hN, fnOldIndex_one _ hN2]
  refine coefRow_eval_eq_point hb hv 1 (points.length - 2) (points.length - 1)
    (by omega) (by omega) ?_
  intro d hd
  have := coefEntry_sum hb d hd (points.length - 2) (by omega)
  rw [show points.length - 2 + 1 = points.length - 1 by omega] at this
  rw [column_getD points d _ (by omega)] at this
  rw [← this]
  ring

/-- A uniform build (no `distances` argument) normalizes `np.ones(N-1)` to
constant spacings `1/(N-1)`. -/
theorem build_ok_dt_of_uniform {points : List (List ℚ)} {dists : Option (List ℚ)}
    {bc : String} {s : Spline} (hb : build points dists bc = .ok s)
    (hu : s.uniform = true) :
    s.dt = List.replicate (points.length - 1) (1 / ((points.length - 1 : ℕ) : ℚ)) := by
  rcases build_ok_elim hb with ⟨rfl, hv⟩ | ⟨ds, rfl, hlen, hv⟩
  · obtain ⟨_, _, _, hdt, _⟩ := buildValid_ok_fields hv
    rw [hdt, List.map_replicate]
    congr 1
    rw [List.sum_replicate]
    simp
  · obtain ⟨_, _, hu', _, _⟩ := buildValid_ok_fields hv
    rw [hu'] at hu
    exact absurd hu (by simp)

/-- The local parameter computed at `t = 1` in the last segment is exactly 1
(line 131 with `i = N-2`). -/
theorem localParam_one {points : List (List ℚ)} {dists : Option (List ℚ)} {bc : String}
    {s : Spline} (hb : build points dists bc = .ok s)
    (hN : 2 ≤ points.length) (hsp : ValidSpacing points dists) :
    (1 - s.t0.getD (points.length - 2) 0) / s.dt.getD (points.length - 2) 0 = 1 := by
  obtain ⟨hdtlen, hdtpos, hdtsum⟩ := build_ok_dt hb hN hsp
  have hne : s.dt ≠ [] := by
    intro h
    rw [h] at hdtlen
    simp at hdtlen
    omega
  have hlast : (s.dt.take (points.length - 2)).sum + s.dt.getD (points.length - 2) 0 = 1 := by
    have := sum_take_last s.dt hne
    rw [hdtlen] at this
    rw [show points.length - 1 - 1 = points.length - 2 by omega] at this
    rw [this, hdtsum]
  have hpos2 : 0 < s.dt.getD (points.length - 2) 0 := by
    have hmem : s.dt.getD (points.length - 2) 0 ∈ s.dt := by
      rw [List.getD_eq_getElem?_getD, List.getElem?_eq_getElem (by omega)]
      exact List.getElem_mem _
    exact hdtpos _ hmem
  rw [t0_getD hb _ (by omega)]
  rw [show (1 : ℚ) - (s.dt.take (points.length - 2)).sum = s.dt.getD (points.length - 2) 0 by
    linarith]
  exact div_self (ne_of_gt hpos2)

/-- Entries of `dt` are positive at in-range indices. -/
theorem dt_getD_pos {points : List (List ℚ)} {dists : Option (List ℚ)} {bc : String}
    {s : Spline} (hb : build points dists bc = .ok s)
    (hN : 2 ≤ points.length) (hsp : ValidSpacing points dists)
    (j : ℕ) (hj : j < points.length - 1) : 0 < s.dt.getD j 0 := by
  obtain ⟨hdtlen, hdtpos, hdtsum⟩ := build_ok_dt hb hN hsp
  have hmem : s.dt.getD j 0 ∈ s.dt := by
    rw [List.getD_eq_getElem?_getD, List.getElem?_eq_getElem (by omega)]
    exact List.getElem_mem _
  exact hdtpos _ hmem

/-! ### Claim C1 -/

/-- C1: for every spline built from a valid point sequence of `N ≥ 2` points
(any supported boundary condition, any valid spacing vector), evaluating at
parameter 0 returns the first input point and evaluating at parameter 1
returns the last input point — in both the non-uniform-capable variant
(`fn`) and, for the uniform builds it supports, the older variant
(`fnOldRow`). -/
theorem claim_C1 {points : List (List ℚ)} {dists : Option (List ℚ)} {bc : String}
    {s : Spline} (hv : ValidPoints points) (hsp : ValidSpacing points dists)
    (hb : build points dists bc = .ok s) :
    fn s (.scalar 0) = some (pointRes s.M (points.getD 0 [])) ∧
    fn s (.scalar 1) = some (pointRes s.M (points.getD (points.length - 1) [])) ∧
    (dists = none → fnOldRow s 0 = points.getD 0 [] ∧
      fnOldRow s 1 = points.getD (points.length - 1) []) := by
  refine ⟨fn_scalar (evalRow_zero hb hv hsp), fn_scalar (evalRow_one hb hv hsp), ?_⟩
  intro _
  exact ⟨fnOldRow_zero hb hv, fnOldRow_one hb hv⟩

def c1Points : List (List ℚ) := [[0, 0], [1, 10], [3, 30]]

def c1Spline : Spline :=
  match build c1Points (some [1, 2]) "natural" with
  | .ok s => s
  | .error _ => default

theorem claim_C1_witness :
    fn c1Spline (.scalar 0) = some (.vec [0, 0]) ∧
    fn c1Spline (.scalar 1) = some (.vec [3, 30]) := by
  have h := claim_C1 (show ValidPoints c1Points by decide)
    (show ValidSpacing c1Points (some [1, 2]) by decide)
    (show build c1Points (some [1, 2]) "natural" = .ok c1Spline by decide)
  exact ⟨by rw [h.1]; decide, by rw [h.2.1]; decide⟩

/-! ### Claim C2 -/

/-- C2: at every interior knot `i` the spline evaluated at that knot's
cumulative offset returns `points[i]`, and the first derivative (with
respect to the global parameter) is continuous across the knot: segment
`i-1`'s end-slope equals segment `i`'s start-slope, in every dimension. -/
theorem claim_C2 {points : List (List ℚ)} {dists : Option (List ℚ)} {bc : String}
    {s : Spline} (hv : ValidPoints points) (hsp : ValidSpacing points dists)
    (hb : build points dists bc = .ok s) (i : ℕ) (h1 : 1 ≤ i)
    (h2 : i ≤ points.length - 2) :
    fn s (.scalar (s.t0.getD i 0)) = some (pointRes s.M (points.getD i [])) ∧
    ∀ d, d < s.M → segDerivGlobal s (i - 1) d 1 = segDerivGlobal s i d 0 := by
  have hN : 2 ≤ points.length := hv.1
  have hi : i < points.length - 1 := by omega
  constructor
  · rw [t0_getD hb i hi]
    exact fn_scalar (evalRow_knot hb hv hsp i hi)
  · intro d hd
    obtain ⟨dv, hf⟩ := coefEntry_formula hb d hd
    have hi1 : i - 1 < points.length - 1 := by omega
    have hii : i - 1 + 1 = i := by omega
    rw [segDerivGlobal, segDerivGlobal, segDerivLocal, segDerivLocal]
    rw [hf (i - 1) hi1, hf i hi, hii]
    cases huni : s.uniform with
    | true =>
        have hdtc := build_ok_dt_of_uniform hb huni
        have he : ∀ j, j < points.length - 1 →
            s.dt.getD j 0 = 1 / ((points.length - 1 : ℕ) : ℚ) := by
          intro j hj
          rw [hdtc, List.getD_eq_getElem _ _ (by simpa using hj), List.getElem_replicate]
        rw [he (i - 1) hi1, he i hi]
        simp only [eq_self_iff_true, if_true, List.getD_cons_succ, List.getD_cons_zero]
        ring
    | false =>
        have hp1 : s.dt.getD (i - 1) 0 ≠ 0 :=
          ne_of_gt (dt_getD_pos hb hN hsp (i - 1) hi1)
        have hp2 : s.dt.getD i 0 ≠ 0 := ne_of_gt (dt_getD_pos hb hN hsp i hi)
        simp only [Bool.false_eq_true, if_false, List.getD_cons_succ, List.getD_cons_zero]
        rw [div_eq_div_iff hp1 hp2]
        ring

def c2Points : List (List ℚ) := [[0, 0], [1, 10], [3, 30]]

def c2Spline : Spline :=
  match build c2Points (some [1, 2]) "natural" with
  | .ok s => s
  | .error _ => default

theorem claim_C2_witness :
    c2Spline.t0.getD 1 0 = 1 / 3 ∧
    fn c2Spline (.scalar (c2Spline.t0.getD 1 0)) = some (.vec [1, 10]) ∧
    segDerivGlobal c2Spline 0 0 1 = segDerivGlobal c2Spline 1 0 0 := by
  have h := claim_C2 (show ValidPoints c2Points by decide)
    (show ValidSpacing c2Points (some [1, 2]) by decide)
    (show build c2Points (some [1, 2]) "natural" = .ok c2Spline by decide)
    1 (by decide) (by decide)
  exact ⟨by decide, by rw [h.1]; decide, h.2 0 (by decide)⟩

/-! ### Claim C4 -/

/-- C4: evaluating at exactly `t = 1` localizes to the last segment
(index `N-2`) with local parameter exactly 1, and segment localization never
produces an out-of-range index — in the search-based variant (`locate`,
line 130 of `cubic_spline.py`) and in the older explicit-remap variant
(`fnOldIndex`, lines 102-108 of `CubicSpline.py`). -/
theorem claim_C4 {points : List (List ℚ)} {dists : Option (List ℚ)} {bc : String}
    {s : Spline} (hv : ValidPoints points) (hsp : ValidSpacing points dists)
    (hb : build points dists bc = .ok s) :
    locate s.t0 1 = some (s.N - 2) ∧
    (1 - s.t0.getD (s.N - 2) 0) / s.dt.getD (s.N - 2) 0 = 1 ∧
    (∀ t i, locate s.t0 t = some i → i < s.N - 1) ∧
    fnOldIndex s.N 1 = (s.N - 2, 1) ∧
    (∀ t, 0 ≤ t → t ≤ 1 → (fnOldIndex s.N t).1 < s.N - 1) := by
  obtain ⟨hN, _, _, _, _⟩ := build_ok_fields hb
  have hN2 : 2 ≤ points.length := hv.1
  rw [hN]
  refine ⟨locate_one hb hN2 hsp, localParam_one hb hN2 hsp, ?_, fnOldIndex_one _ hN2, ?_⟩
  · intro t i h
    have := locate_lt_length h
    rw [t0_length hb] at this
    exact this
  · intro t ht0 ht1
    rw [fnOldIndex]
    have hfl : (⌊t * ((points.length : ℚ) - 1)⌋).toNat ≤ points.length - 1 := by
      have hb1 : t * ((points.length : ℚ) - 1) ≤ ((points.length - 1 : ℕ) : ℚ) := by
        rw [Nat.cast_sub (by omega)]
        push_cast
        have hcast : (1 : ℚ) ≤ (points.length : ℚ) := by
          exact_mod_cast (show 1 ≤ points.length by omega)
        nlinarith [hcast]
      have := Int.floor_le_floor hb1
      rw [Int.floor_natCast] at this
      omega
    by_cases hc : (⌊t * ((points.length : ℚ) - 1)⌋).toNat = points.length - 1
    · rw [if_pos hc]
      simp only
      omega
    · rw [if_neg hc]
      simp only
      omega

def c4Points : List (List ℚ) := [[0], [1], [2]]

def c4Spline : Spline :=
  match build c4Points none "natural" with
  | .ok s => s
  | .error _ => default

theorem claim_C4_witness :
    locate c4Spline.t0 1 = some 1 ∧
    (1 - c4Spline.t0.getD 1 0) / c4Spline.dt.getD 1 0 = 1 ∧
    fnOldIndex c4Spline.N 1 = (1, 1) := by
  have h := claim_C4 (show ValidPoints c4Points by decide)
    (show ValidSpacing c4Points none by decide)
    (show build c4Points none "natural" = .ok c4Spline by decide)
  refine ⟨?_, ?_, ?_⟩
  · have := h.1
    rw [show c4Spline.N - 2 = 1 by decide] at this
    exact this
  · have := h.2.1
    rw [show c4Spline.N - 2 = 1 by decide] at this
    exact this
  · have := h.2.2.2.1
    rw [show c4Spline.N - 2 = 1 by decide] at this
    exact this

/-! ### Claim C5 -/

def c5Points : List (List ℚ) := [[0], [1]]

def c5Spline : Spline :=
  match build c5Points (some [1]) "natural" with
  | .ok s => s
  | .error _ => default

/-- C5 as stated is false on the code: for a valid 2-point build the retained
offset vector `t0` has length `N - 1 = 1` (not `N = 2`) and its last entry
is 0 (not 1), because line 58 stores
`np.insert(np.cumsum(self.dt[:-1]), 0, 0)`. -/
theorem claim_C5_counterexample :
    ValidPoints c5Points ∧ ValidSpacing c5Points (some [1]) ∧
    build c5Points (some [1]) "natural" = .ok c5Spline ∧
    c5Spline.t0 = [0] ∧
    ¬(c5Spline.t0.length = c5Points.length ∧ c5Spline.t0.getLast? = some 1) := by
  decide

/-- C5 (amended): after construction with any valid spacing vector the
normalized spacings sum to 1, and the retained cumulative-sum vector of
segment start offsets has length `N - 1`, starts at 0, and ends at
`1 - dt[N-2]` (the start offset of the last segment). -/
theorem claim_C5_amended {points : List (List ℚ)} {dists : Option (List ℚ)} {bc : String}
    {s : Spline} (hv : ValidPoints points) (hsp : ValidSpacing points dists)
    (hb : build points dists bc = .ok s) :
    s.dt.sum = 1 ∧ s.t0.length = points.length - 1 ∧ s.t0.getD 0 0 = 0 ∧
    s.t0.getLast? = some (1 - s.dt.getD (points.length - 2) 0) := by
  have hN : 2 ≤ points.length := hv.1
  obtain ⟨hdtlen, hdtpos, hdtsum⟩ := build_ok_dt hb hN hsp
  refine ⟨hdtsum, t0_length hb, ?_, ?_⟩
  · rw [t0_getD hb 0 (by omega)]
    simp
  · have hlen : s.t0.length = points.length - 1 := t0_length hb
    have hne : s.t0 ≠ [] := by
      intro h
      rw [h] at hlen
      simp at hlen
      omega
    have hbound : s.t0.length - 1 < s.t0.length := by omega
    rw [List.getLast?_eq_getElem?]
    rw [List.getElem?_eq_getElem hbound]
    have hgd : s.t0[s.t0.length - 1] = s.t0.getD (s.t0.length - 1) 0 :=
      (List.getD_eq_getElem _ _ hbound).symm
    rw [hgd, hlen]
    rw [show points.length - 1 - 1 = points.length - 2 by omega]
    rw [t0_getD hb _ (by omega)]
    have hne' : s.dt ≠ [] := by
      intro h
      rw [h] at hdtlen
      simp at hdtlen
      omega
    have := sum_take_last s.dt hne'
    rw [hdtlen, hdtsum] at this
    rw [show points.length - 1 - 1 = points.length - 2 by omega] at this
    congr 1
    linarith

theorem claim_C5_witness :
    c5Spline.dt.sum = 1 ∧ c5Spline.t0.length = 1 ∧ c5Spline.t0.getD 0 0 = 0 ∧
    c5Spline.t0.getLast? = some (1 - c5Spline.dt.getD 0 0) := by
  have h := claim_C5_amended (show ValidPoints c5Points by decide)
    (show ValidSpacing c5Points (some [1]) by decide)
    (show build c5Points (some [1]) "natural" = .ok c5Spline by decide)
  exact h

/-! ### Claim C10 -/

/-- The `d_equal` branch of the per-dimension loop rejects every non-uniform
build: with a spacing vector supplied, `assert(self.uniform)` (line 79)
fails regardless of the spacing values (and for `N ≤ 3` the `N > 3` assert
of line 78 fails first); both asserts are `insufficientPoints`. -/
theorem solveDim_dEqual_nonuniform (N : ℕ) (dtv dim : List ℚ) :
    solveDim N false dtv "d_equal" dim = .error .insufficientPoints := by
  rw [solveDim]
  rw [if_neg (by decide), if_pos rfl]
  by_cases h3 : N ≤ 3
  · rw [if_pos h3]
  · rw [if_neg h3, if_pos rfl]

/-- If the first dimension's solve raises, the whole constructor raises that
error. -/
theorem buildValid_error_of_head {points : List (List ℚ)} {ds : List ℚ} {uniform : Bool}
    {bc : String} {e : SplineError} (hM : 1 ≤ (points.getD 0 []).length)
    (hsd : solveDim points.length uniform (ds.map fun x => x / ds.sum) bc
      (column points 0) = .error e) :
    buildValid points ds uniform bc = .error e := by
  rw [buildValid]
  obtain ⟨m, hm⟩ : ∃ m, (points.getD 0 []).length = m + 1 :=
    ⟨(points.getD 0 []).length - 1, by omega⟩
  rw [hm, List.range_succ_eq_map, List.map_cons]
  rw [buildDims_error_head _ _ _ e (by rw [hsd]; rfl)]

/-- C10: in the non-uniform-capable implementation, `d_equal` together with
*any* explicitly supplied spacing vector fails — even an all-equal
(effectively uniform) one — because the rejection tests the uniform *flag*
(set iff `distances is None`), not the spacing values. -/
theorem claim_C10 (points : List (List ℚ)) (ds : List ℚ)
    (hM : 1 ≤ (points.getD 0 []).length) (hlen : ds.length = points.length - 1) :
    build points (some ds) "d_equal" = .error .insufficientPoints := by
  rw [build, if_pos hlen]
  exact buildValid_error_of_head hM (solveDim_dEqual_nonuniform _ _ _)

theorem claim_C10_witness :
    build [[0], [1], [2], [3], [4]] (some [1, 1, 1, 1]) "d_equal" =
      .error .insufficientPoints :=
  claim_C10 [[0], [1], [2], [3], [4]] [1, 1, 1, 1] (by decide) (by decide)

/-! ### Claims C8 and C9 -/

/-- A nonnegative query always evaluates to a row of `M` values. -/
theorem evalRow_some_of_nonneg {points : List (List ℚ)} {dists : Option (List ℚ)}
    {bc : String} {s : Spline} (hb : build points dists bc = .ok s)
    (hN : 2 ≤ points.length) {t : ℚ} (ht : 0 ≤ t) :
    ∃ r, evalRow s t = some r ∧ r.length = s.M := by
  obtain ⟨i, hi⟩ := locate_some_of_nonneg hb hN ht
  rw [evalRow, hi]
  refine ⟨_, rfl, ?_⟩
  rw [List.length_map]
  have hil := locate_lt_length hi
  rw [t0_length hb] at hil
  exact (build_ok_fields hb).2.2.2.2 i hil

/-- Batch evaluation of a list of nonnegative queries succeeds pointwise. -/
theorem mapM_evalRow_some {points : List (List ℚ)} {dists : Option (List ℚ)}
    {bc : String} {s : Spline} (hb : build points dists bc = .ok s)
    (hN : 2 ≤ points.length) (ts : List ℚ) (hts : ∀ x ∈ ts, 0 ≤ x) :
    ∃ rows, ts.mapM (evalRow s) = some rows ∧
      List.Forall₂ (fun a b => evalRow s a = some b) ts rows := by
  induction ts with
  | nil => exact ⟨[], rfl, List.Forall₂.nil⟩
  | cons a rest ih =>
      obtain ⟨rows, hm, hfa⟩ := ih fun x hx => hts x (by simp [hx])
      obtain ⟨r, hr, _⟩ := evalRow_some_of_nonneg hb hN (hts a (by simp))
      refine ⟨r :: rows, ?_, List.Forall₂.cons hr hfa⟩
      rw [mapM_option_iff]
      exact List.Forall₂.cons hr ((mapM_option_iff _ _ _).mp hm)

/-- C8: the output shape contract of `fn` (lines 136-137): an `M = 1` build
collapses the per-dimension axis, a single scalar query collapses to a
single point, and the two collapses compose (a scalar query of an `M = 1`
spline gives a bare scalar). -/
theorem claim_C8 {points : List (List ℚ)} {dists : Option (List ℚ)} {bc : String}
    {s : Spline} (hv : ValidPoints points) (hsp : ValidSpacing points dists)
    (hb : build points dists bc = .ok s) :
    (∀ t : ℚ, 0 ≤ t →
      (s.M = 1 → ∃ q, fn s (.scalar t) = some (.scal q)) ∧
      (2 ≤ s.M → ∃ r, fn s (.scalar t) = some (.vec r) ∧ r.length = s.M)) ∧
    (∀ ts : List ℚ, (∀ x ∈ ts, 0 ≤ x) → 2 ≤ ts.length → s.M = 1 →
      ∃ col, fn s (.arr ts) = some (.vec col) ∧ col.length = ts.length) := by
  have hN : 2 ≤ points.length := hv.1
  constructor
  · intro t ht
    obtain ⟨r, hr, hrlen⟩ := evalRow_some_of_nonneg hb hN ht
    have hfn := fn_scalar hr
    constructor
    · intro hM1
      rw [pointRes, if_pos hM1] at hfn
      exact ⟨_, hfn⟩
    · intro hM2
      rw [pointRes, if_neg (by omega)] at hfn
      exact ⟨r, hfn, hrlen⟩
  · intro ts hts hlen hM1
    obtain ⟨rows, hm, hfa⟩ := mapM_evalRow_some hb hN ts hts
    rw [fn]
    dsimp only
    rw [hm]
    refine ⟨rows.map fun r => r.getD 0 0, ?_, by rw [List.length_map, hfa.length_eq]⟩
    simp [hM1, show ¬ts.length = 1 by omega]

def c8Points : List (List ℚ) := [[0], [1], [2]]

def c8Spline : Spline :=
  match build c8Points none "natural" with
  | .ok s => s
  | .error _ => default

theorem claim_C8_witness :
    (∃ q, fn c8Spline (.scalar 0) = some (.scal q)) ∧
    (∃ col, fn c8Spline (.arr [0, 1]) = some (.vec col) ∧ col.length = [(0 : ℚ), 1].length) := by
  have h := claim_C8 (show ValidPoints c8Points by decide)
    (show ValidSpacing c8Points none by decide)
    (show build c8Points none "natural" = .ok c8Spline by decide)
  exact ⟨(h.1 0 (by decide)).1 (by decide),
    h.2 [0, 1] (by decide) (by decide) (by decide)⟩

/-- C9 (amended): for `n ≥ 2` samples, `interpolate` returns the `n` evenly
spaced parameters 0 to 1 inclusive (strictly increasing, constant gap
`1/(n-1)`) together with the evaluated points, whose first and last rows are
`evaluate(0)` and `evaluate(1)` — the first and last input points. -/
theorem claim_C9_amended {points : List (List ℚ)} {dists : Option (List ℚ)} {bc : String}
    {s : Spline} (hv : ValidPoints points) (hsp : ValidSpacing points dists)
    (hb : build points dists bc = .ok s) (n : ℕ) (hn : 2 ≤ n) :
    (interpolate s n).2 = linspace01 n ∧
    (interpolate s n).1 = fn s (.arr (linspace01 n)) ∧
    (linspace01 n).length = n ∧
    (linspace01 n).getD 0 0 = 0 ∧
    (linspace01 n).getD (n - 1) 0 = 1 ∧
    (∀ k, k + 1 < n → (linspace01 n).getD k 0 < (linspace01 n).getD (k + 1) 0 ∧
      (linspace01 n).getD (k + 1) 0 - (linspace01 n).getD k 0 = 1 / ((n : ℚ) - 1)) ∧
    ∃ rows, (linspace01 n).mapM (evalRow s) = some rows ∧ rows.length = n ∧
      rows.getD 0 [] = points.getD 0 [] ∧
      rows.getD (n - 1) [] = points.getD (points.length - 1) [] ∧
      fn s (.scalar 0) = some (pointRes s.M (rows.getD 0 [])) ∧
      fn s (.scalar 1) = some (pointRes s.M (rows.getD (n - 1) [])) := by
  have hN : 2 ≤ points.length := hv.1
  have hden : (0 : ℚ) < (n : ℚ) - 1 := by
    have : (2 : ℚ) ≤ (n : ℚ) := by exact_mod_cast hn
    linarith
  have hls : linspace01 n = (List.range n).map fun i : ℕ => (i : ℚ) / ((n : ℚ) - 1) := by
    rw [linspace01, if_neg (by omega)]
  have hlen : (linspace01 n).length = n := by rw [hls]; simp
  have hgetD : ∀ k, k < n → (linspace01 n).getD k 0 = (k : ℚ) / ((n : ℚ) - 1) := by
    intro k hk
    rw [hls, getD_range_map _ _ _ hk]
  have h0 : (linspace01 n).getD 0 0 = 0 := by
    rw [hgetD 0 (by omega)]
    simp
  have h1 : (linspace01 n).getD (n - 1) 0 = 1 := by
    rw [hgetD (n - 1) (by omega)]
    rw [Nat.cast_sub (by omega)]
    simp only [Nat.cast_one]
    exact div_self (by linarith)
  have hnonneg : ∀ x ∈ linspace01 n, 0 ≤ x := by
    intro x hx
    rw [hls] at hx
    rcases List.mem_map.mp hx with ⟨k, _, rfl⟩
    positivity
  obtain ⟨rows, hm, hfa⟩ := mapM_evalRow_some hb hN (linspace01 n) hnonneg
  have hrowslen : rows.length = n := by rw [← hfa.length_eq, hlen]
  have hpoint : ∀ k, k < n → evalRow s ((linspace01 n).getD k 0) = some (rows.getD k []) := by
    intro k hk
    rw [List.forall₂_iff_get] at hfa
    have := hfa.2 k (by omega) (by omega)
    rw [List.get_eq_getElem, List.get_eq_getElem] at this
    rw [List.getD_eq_getElem _ _ (by omega), List.getD_eq_getElem _ _ (by omega)]
    exact this
  have hrow0 : rows.getD 0 [] = points.getD 0 [] := by
    have := hpoint 0 (by omega)
    rw [h0, evalRow_zero hb hv hsp] at this
    exact (Option.some_inj.mp this).symm
  have hrowlast : rows.getD (n - 1) [] = points.getD (points.length - 1) [] := by
    have := hpoint (n - 1) (by omega)
    rw [h1, evalRow_one hb hv hsp] at this
    exact (Option.some_inj.mp this).symm
  refine ⟨rfl, rfl, hlen, h0, h1, ?_, rows, hm, hrowslen, hrow0, hrowlast, ?_, ?_⟩
  · intro k hk
    rw [hgetD k (by omega), hgetD (k + 1) (by omega)]
    constructor
    · rw [div_lt_div_right hden]
      push_cast
      linarith
    · rw [div_sub_div_same]
      push_cast
      ring_nf
  · rw [hrow0]
    exact fn_scalar (evalRow_zero hb hv hsp)
  · rw [hrowlast]
    exact fn_scalar (evalRow_one hb hv hsp)

def c9Points : List (List ℚ) := [[0], [1]]

def c9Spline : Spline :=
  match build c9Points none "natural" with
  | .ok s => s
  | .error _ => default

/-- C9 as stated is false for `n = 1`: `np.linspace(0, 1, 1)` is `[0.]`, so
`interpolate(1)` returns the single parameter 0 (the endpoint 1 is not
included) and its one returned point is `evaluate(0)`, which differs from
`evaluate(1)`. -/
theorem claim_C9_counterexample :
    build c9Points none "natural" = .ok c9Spline ∧
    interpolate c9Spline 1 = (some (.scal 0), [0]) ∧
    fn c9Spline (.scalar 1) = some (.scal 1) ∧
    (some (Res.scal 0) ≠ some (Res.scal 1) ∧ (1 : ℚ) ∉ [(0 : ℚ)]) := by
  decide

theorem claim_C9_witness :
    (interpolate c9Spline 3).2 = [0, 1 / 2, 1] ∧ (linspace01 3).getD 2 0 = 1 := by
  have h := claim_C9_amended (show ValidPoints c9Points by decide)
    (show ValidSpacing c9Points none by decide)
    (show build c9Points none "natural" = .ok c9Spline by decide) 3 (by decide)
  refine ⟨by rw [h.1]; decide, h.2.2.2.2.1⟩

/-! ### Claim C7 -/

theorem padFn_eq {n : ℕ} (x : Fin n → ℚ) (k : ℕ) (hk : k < n) :
    padFn n x k = x ⟨k, hk⟩ := by
  rw [padFn, dif_pos hk]

theorem sum_two_of_support {n : ℕ} (f : Fin n → ℚ) (a b : Fin n) (hab : a ≠ b)
    (h0 : ∀ c, c ≠ a → c ≠ b → f c = 0) : ∑ c, f c = f a + f b :=
  Finset.sum_eq_add_of_mem a b (Finset.mem_univ a) (Finset.mem_univ b) hab
    fun c _ hc => h0 c hc.1 hc.2

theorem sum_three_of_support {n : ℕ} (f : Fin n → ℚ) (a b c : Fin n)
    (hab : a ≠ b) (hac : a ≠ c) (hbc : b ≠ c)
    (h0 : ∀ e, e ≠ a → e ≠ b → e ≠ c → f e = 0) :
    ∑ e, f e = f a + f b + f c := by
  rw [← Finset.add_sum_erase _ f (Finset.mem_univ a)]
  rw [← Finset.add_sum_erase _ f (by
    rw [Finset.mem_erase]
    exact ⟨Ne.symm hab, Finset.mem_univ b⟩)]
  rw [← Finset.add_sum_erase _ f (by
    rw [Finset.mem_erase, Finset.mem_erase]
    exact ⟨Ne.symm hbc, Ne.symm hac, Finset.mem_univ c⟩)]
  rw [Finset.sum_eq_zero]
  · ring
  · intro e he
    rw [Finset.mem_erase, Finset.mem_erase, Finset.mem_erase] at he
    exact h0 e he.2.2.1 he.2.1 he.1

/-- The first row of the `natural` uniform system. -/
theorem matNatU_row0 {N : ℕ} (hN : 2 ≤ N) (x : Fin N → ℚ) (dim : List ℚ)
    (heq : (matNatU N).mulVec x = rowNatU N dim) :
    2 * x ⟨0, by omega⟩ + x ⟨1, by omega⟩ = 3 * (dim.getD 1 0 - dim.getD 0 0) := by
  have h := congrFun heq ⟨0, by omega⟩
  rw [Matrix.mulVec, Matrix.dotProduct] at h
  rw [sum_two_of_support (fun j => matNatU N ⟨0, by omega⟩ j * x j) ⟨0, by omega⟩
      ⟨1, by omega⟩ (by simp [Fin.ext_iff])
      (fun c hc0 hc1 => by
        have h1 : c.val ≠ 0 := fun hcv => hc0 (Fin.ext hcv)
        have h2 : c.val ≠ 1 := fun hcv => hc1 (Fin.ext hcv)
        have f1 : (0 : ℕ) ≠ N - 1 := by omega
        rw [matNatU]
        simp only [Matrix.of_apply, eq_self_iff_true, if_true, if_neg h1, if_neg h2,
          if_neg f1]
        ring)] at h
  rw [matNatU, rowNatU] at h
  have f10 : (1 : ℕ) ≠ 0 := by omega
  simp only [Matrix.of_apply, eq_self_iff_true, if_true, if_neg f10] at h
  linarith [h]

/-- The last row of the `natural` uniform system. -/
theorem matNatU_rowLast {N : ℕ} (hN : 2 ≤ N) (x : Fin N → ℚ) (dim : List ℚ)
    (heq : (matNatU N).mulVec x = rowNatU N dim) :
    x ⟨N - 2, by omega⟩ + 2 * x ⟨N - 1, by omega⟩ =
      3 * (dim.getD (N - 1) 0 - dim.getD (N - 2) 0) := by
  have h := congrFun heq ⟨N - 1, by omega⟩
  rw [Matrix.mulVec, Matrix.dotProduct] at h
  rw [sum_two_of_support (fun j => matNatU N ⟨N - 1, by omega⟩ j * x j) ⟨N - 2, by omega⟩
      ⟨N - 1, by omega⟩ (by simp [Fin.ext_iff]; omega)
      (fun c hcA hcB => by
        have h1 : c.val ≠ N - 2 := fun hcv => hcA (Fin.ext hcv)
        have h2 : c.val ≠ N - 1 := fun hcv => hcB (Fin.ext hcv)
        have f1 : N - 1 ≠ 0 := by omega
        rw [matNatU]
        simp only [Matrix.of_apply, eq_self_iff_true, if_true, if_neg f1, if_neg h1,
          if_neg h2]
        ring)] at h
  rw [matNatU, rowNatU] at h
  have f1 : N - 1 ≠ 0 := by omega
  have f2 : N - 1 ≠ N - 2 := by omega
  simp only [Matrix.of_apply, eq_self_iff_true, if_true, if_neg f1, if_neg f2] at h
  linarith [h]

/-- The first row of the `natural` non-uniform system. -/
theorem matNatNU_row0 {N : ℕ} (hN : 2 ≤ N) (dtv : List ℚ) (x : Fin N → ℚ) (dim : List ℚ)
    (heq : (matNatNU N dtv).mulVec x = rowNatNU N dtv dim) :
    2 / dtv.getD 0 0 * x ⟨0, by omega⟩ + 1 / dtv.getD 0 0 * x ⟨1, by omega⟩ =
      3 * (dim.getD 1 0 - dim.getD 0 0) / (dtv.getD 0 0) ^ 2 := by
  have h := congrFun heq ⟨0, by omega⟩
  rw [Matrix.mulVec, Matrix.dotProduct] at h
  rw [sum_two_of_support (fun j => matNatNU N dtv ⟨0, by omega⟩ j * x j) ⟨0, by omega⟩
      ⟨1, by omega⟩ (by simp [Fin.ext_iff])
      (fun c hc0 hc1 => by
        have h1 : c.val ≠ 0 := fun hcv => hc0 (Fin.ext hcv)
        have h2 : c.val ≠ 1 := fun hcv => hc1 (Fin.ext hcv)
        have f1 : (0 : ℕ) ≠ N - 1 := by omega
        rw [matNatNU]
        simp only [Matrix.of_apply, eq_self_iff_true, if_true, if_neg h1, if_neg h2,
          if_neg f1]
        ring)] at h
  rw [matNatNU, rowNatNU] at h
  have f10 : (1 : ℕ) ≠ 0 := by omega
  simp only [Matrix.of_apply, eq_self_iff_true, if_true, if_neg f10] at h
  linarith [h]

/-- The last row of the `natural` non-uniform system. -/
theorem matNatNU_rowLast {N : ℕ} (hN : 2 ≤ N) (dtv : List ℚ) (x : Fin N → ℚ)
    (dim : List ℚ) (heq : (matNatNU N dtv).mulVec x = rowNatNU N dtv dim) :
    1 / dtv.getD (N - 2) 0 * x ⟨N - 2, by omega⟩ +
      2 / dtv.getD (N - 2) 0 * x ⟨N - 1, by omega⟩ =
      3 * (dim.getD (N - 1) 0 - dim.getD (N - 2) 0) / (dtv.getD (N - 2) 0) ^ 2 := by
  have h := congrFun heq ⟨N - 1, by omega⟩
  rw [Matrix.mulVec, Matrix.dotProduct] at h
  rw [sum_two_of_support (fun j => matNatNU N dtv ⟨N - 1, by omega⟩ j * x j)
      ⟨N - 2, by omega⟩ ⟨N - 1, by omega⟩ (by simp [Fin.ext_iff]; omega)
      (fun c hcA hcB => by
        have h1 : c.val ≠ N - 2 := fun hcv => hcA (Fin.ext hcv)
        have h2 : c.val ≠ N - 1 := fun hcv => hcB (Fin.ext hcv)
        have f1 : N - 1 ≠ 0 := by omega
        rw [matNatNU]
        simp only [Matrix.of_apply, eq_self_iff_true, if_true, if_neg f1, if_neg h1,
          if_neg h2]
        ring)] at h
  rw [matNatNU, rowNatNU] at h
  have f1 : N - 1 ≠ 0 := by omega
  have f2 : N - 1 ≠ N - 2 := by omega
  simp only [Matrix.of_apply, eq_self_iff_true, if_true, if_neg f1, if_neg f2] at h
  linarith [h]

/-! ### Claim C7 -/

/-- C7: under the `natural` boundary condition the second derivative of the
constructed curve vanishes at both endpoints: the quadratic coefficient of
the first segment is zero, and the quadratic plus three times the cubic
coefficient of the last segment is zero, in every dimension (so the local —
and hence also the `1/dt²`-scaled global — second derivative is zero at
parameters 0 and 1). -/
theorem claim_C7 {points : List (List ℚ)} {dists : Option (List ℚ)} {s : Spline}
    (hv : ValidPoints points) (hsp : ValidSpacing points dists)
    (hb : build points dists "natural" = .ok s) (d : ℕ) (hd : d < s.M) :
    (coefEntry s 0 d).getD 2 0 = 0 ∧
    (coefEntry s (points.length - 2) d).getD 2 0 +
      3 * (coefEntry s (points.length - 2) d).getD 3 0 = 0 := by
  have hN : 2 ≤ points.length := hv.1
  obtain ⟨x, hsol, hcoef⟩ := build_ok_spec hb d hd
  rcases solveDim_ok_mulVec hsol with ⟨_, hmv⟩ | ⟨hbc, _⟩
  case intro.intro.inr.intro => exact absurd hbc (by decide)
  have h0N : 0 < points.length - 1 := by omega
  have hlastN : points.length - 2 < points.length - 1 := by omega
  have hc0 := hcoef 0 h0N
  have hcl := hcoef (points.length - 2) hlastN
  rw [segCoefDim, getD_range_map _ _ _ h0N] at hc0
  rw [segCoefDim, getD_range_map _ _ _ hlastN] at hcl
  have hp0 : padFn points.length x 0 = x ⟨0, by omega⟩ := padFn_eq x 0 (by omega)
  have hp1 : padFn points.length x 1 = x ⟨1, by omega⟩ := padFn_eq x 1 (by omega)
  have hpA : padFn points.length x (points.length - 2) = x ⟨points.length - 2, by omega⟩ :=
    padFn_eq x _ (by omega)
  have hpB : padFn points.length x (points.length - 1) =
      x ⟨points.length - 1, by omega⟩ := padFn_eq x _ (by omega)
  cases huni : s.uniform with
  | true =>
      rw [huni] at hmv hc0 hcl
      simp only [eq_self_iff_true, if_true] at hmv hc0 hcl
      have hrow0 := matNatU_row0 hN x (column points d) hmv
      have hrowL := matNatU_rowLast hN x (column points d) hmv
      rw [coefEntry, coefEntry] at *
      rw [hc0, hcl]
      rw [show points.length - 2 + 1 = points.length - 1 by omega]
      simp only [List.getD_cons_succ, List.getD_cons_zero, Nat.zero_add, hp0, hp1, hpA, hpB]
      constructor
      · linarith [hrow0]
      · linarith [hrowL]
  | false =>
      rw [huni] at hmv hc0 hcl
      simp only [Bool.false_eq_true, if_false] at hmv hc0 hcl
      have hrow0 := matNatNU_row0 hN s.dt x (column points d) hmv
      have hrowL := matNatNU_rowLast hN s.dt x (column points d) hmv
      have hd0 : s.dt.getD 0 0 ≠ 0 := ne_of_gt (dt_getD_pos hb hN hsp 0 h0N)
      have hdL : s.dt.getD (points.length - 2) 0 ≠ 0 :=
        ne_of_gt (dt_getD_pos hb hN hsp _ hlastN)
      have key0 : (2 * x ⟨0, by omega⟩ + x ⟨1, by omega⟩) * s.dt.getD 0 0 =
          3 * ((column points d).getD 1 0 - (column points d).getD 0 0) := by
        have hL : 2 / s.dt.getD 0 0 * x ⟨0, by omega⟩ + 1 / s.dt.getD 0 0 * x ⟨1, by omega⟩ =
            (2 * x ⟨0, by omega⟩ + x ⟨1, by omega⟩) / s.dt.getD 0 0 := by ring
        rw [hL, div_eq_div_iff hd0 (pow_ne_zero 2 hd0)] at hrow0
        refine mul_right_cancel₀ hd0 ?_
        linear_combination hrow0
      have keyL : (x ⟨points.length - 2, by omega⟩ + 2 * x ⟨points.length - 1, by omega⟩) *
          s.dt.getD (points.length - 2) 0 =
          3 * ((column points d).getD (points.length - 1) 0 -
            (column points d).getD (points.length - 2) 0) := by
        have hL : 1 / s.dt.getD (points.length - 2) 0 * x ⟨points.length - 2, by omega⟩ +
            2 / s.dt.getD (points.length - 2) 0 * x ⟨points.length - 1, by omega⟩ =
            (x ⟨points.length - 2, by omega⟩ + 2 * x ⟨points.length - 1, by omega⟩) /
              s.dt.getD (points.length - 2) 0 := by ring
        rw [hL, div_eq_div_iff hdL (pow_ne_zero 2 hdL)] at hrowL
        refine mul_right_cancel₀ hdL ?_
        linear_combination hrowL
      rw [coefEntry, coefEntry] at *
      rw [hc0, hcl]
      rw [show points.length - 2 + 1 = points.length - 1 by omega]
      simp only [List.getD_cons_succ, List.getD_cons_zero, Nat.zero_add, hp0, hp1, hpA, hpB]
      constructor
      · linarith [key0]
      · linarith [keyL]

def c7Points : List (List ℚ) := [[0, 0], [1, 10], [3, 30]]

def c7Spline : Spline :=
  match build c7Points (some [1, 2]) "natural" with
  | .ok s => s
  | .error _ => default

theorem claim_C7_witness :
    (coefEntry c7Spline 0 0).getD 2 0 = 0 ∧
    (coefEntry c7Spline 1 0).getD 2 0 + 3 * (coefEntry c7Spline 1 0).getD 3 0 = 0 := by
  have h := claim_C7 (show ValidPoints c7Points by decide)
    (show ValidSpacing c7Points (some [1, 2]) by decide)
    (show build c7Points (some [1, 2]) "natural" = .ok c7Spline by decide) 0 (by decide)
  exact h

/-! ### Claim C6 -/

/-- Normalizing a constant spacing vector gives constant `1/(N-1)` spacings,
regardless of the constant. -/
theorem replicate_normalize (n : ℕ) (c : ℚ) (hc : c ≠ 0) :
    (List.replicate n c).map (fun x => x / (List.replicate n c).sum) =
      List.replicate n (1 / (n : ℚ)) := by
  rw [List.map_replicate, List.sum_replicate]
  cases n with
  | zero => simp
  | succ m =>
      congr 1
      rw [nsmul_eq_mul]
      rw [div_eq_div_iff (by positivity) (by positivity)]
      ring

theorem padFn_smul (n : ℕ) (x : Fin n → ℚ) (α : ℚ) :
    padFn n (α • x) = fun k => α * padFn n x k := by
  funext k
  rw [padFn, padFn]
  by_cases h : k < n
  · rw [dif_pos h, dif_pos h]
    simp
  · rw [dif_neg h, dif_neg h]
    ring

theorem buildDims_congr (f g : List ℚ → Except SplineError (List (List ℚ)))
    (l : List (List ℚ)) (h : ∀ d ∈ l, f d = g d) : buildDims f l = buildDims g l := by
  induction l with
  | nil => rfl
  | cons a rest ih =>
      rw [buildDims, buildDims, h a (by simp), ih fun d hd => h d (by simp [hd])]

theorem updateColumn_smul_smul {n : ℕ} (A : Matrix (Fin n) (Fin n) ℚ) (b : Fin n → ℚ)
    (α : ℚ) (i : Fin n) :
    (α • A).updateColumn i ((α ^ 2) • b) = α • (A.updateColumn i (α • b)) := by
  funext j k
  simp only [Matrix.updateColumn_apply, Matrix.smul_apply, Pi.smul_apply, smul_eq_mul]
  by_cases h : k = i
  · rw [if_pos h, if_pos h]
    ring
  · rw [if_neg h, if_neg h]

/-- Scaling the system matrix by `α` and the right-hand side by `α²` scales
the solution by `α`. -/
theorem solveLin_smul {n : ℕ} (A : Matrix (Fin n) (Fin n) ℚ) (b : Fin n → ℚ) (α : ℚ)
    (hα : α ≠ 0) :
    solveLin n (α • A) ((α ^ 2) • b) = (solveLin n A b).map fun x => α • x := by
  have hcard : Fintype.card (Fin n) = n := Fintype.card_fin n
  have hdets : (α • A).det = α ^ n * A.det := by
    rw [Matrix.det_smul, hcard]
  have hpow : (α : ℚ) ^ n ≠ 0 := pow_ne_zero n hα
  have e1 : detAux n (α • A) = α ^ n * A.det := by rw [detAux_eq, hdets]
  have e2 : detAux n A = A.det := detAux_eq n A
  by_cases hdet : A.det = 0
  · rw [solveLin, solveLin, e1, e2]
    rw [if_pos (by rw [hdet, mul_zero]), if_pos hdet]
    rfl
  · rw [solveLin, solveLin, e1, e2]
    rw [if_neg (mul_ne_zero hpow hdet), if_neg hdet]
    rw [show Option.map (fun x : Fin n → ℚ => α • x)
        (some fun i => detAux n (A.updateColumn i b) / A.det) =
        some (α • fun i => detAux n (A.updateColumn i b) / A.det) from rfl]
    congr 1
    funext i
    simp only [Pi.smul_apply, smul_eq_mul]
    rw [detAux_eq, detAux_eq]
    rw [updateColumn_smul_smul, Matrix.det_smul, hcard, Matrix.det_updateColumn_smul]
    rw [mul_div_mul_left _ _ hpow, mul_div_assoc]

theorem getD_replicate_eq {n : ℕ} {c : ℚ} (j : ℕ) (hj : j < n) :
    (List.replicate n c).getD j 0 = c := by
  rw [List.getD_eq_getElem _ _ (by simpa using hj), List.getElem_replicate]

/-- On constant spacings `1/(N-1)`, the non-uniform `natural` matrix is the
uniform one scaled by `N-1`. -/
theorem matNatNU_const (N : ℕ) (hN : 2 ≤ N) :
    matNatNU N (List.replicate (N - 1) (1 / ((N - 1 : ℕ) : ℚ))) =
      ((N - 1 : ℕ) : ℚ) • matNatU N := by
  funext i j
  have hi := i.isLt
  rw [matNatNU, matNatU]
  simp only [Matrix.smul_apply, Matrix.of_apply, smul_eq_mul]
  by_cases h1 : i.val = 0
  · rw [if_pos h1, if_pos h1]
    by_cases h2 : j.val = 0
    · rw [if_pos h2, if_pos h2, getD_replicate_eq 0 (by omega), div_div_eq_mul_div, div_one]
      ring
    · rw [if_neg h2, if_neg h2]
      by_cases h3 : j.val = 1
      · rw [if_pos h3, if_pos h3, getD_replicate_eq 0 (by omega), div_div_eq_mul_div, div_one]
        ring
      · rw [if_neg h3, if_neg h3]
        ring
  · rw [if_neg h1, if_neg h1]
    by_cases h2 : i.val = N - 1
    · rw [if_pos h2, if_pos h2]
      by_cases h3 : j.val = N - 2
      · rw [if_pos h3, if_pos h3, getD_replicate_eq (N - 2) (by omega), div_div_eq_mul_div, div_one]
        ring
      · rw [if_neg h3, if_neg h3]
        by_cases h4 : j.val = N - 1
        · rw [if_pos h4, if_pos h4, getD_replicate_eq (N - 2) (by omega), div_div_eq_mul_div, div_one]
          ring
        · rw [if_neg h4, if_neg h4]
          ring
    · rw [if_neg h2, if_neg h2]
      by_cases h3 : j.val = i.val - 1
      · rw [if_pos h3, if_pos h3, getD_replicate_eq (i.val - 1) (by omega), div_div_eq_mul_div, div_one]
        ring
      · rw [if_neg h3, if_neg h3]
        by_cases h4 : j.val = i.val
        · rw [if_pos h4, if_pos h4, getD_replicate_eq (i.val - 1) (by omega),
            getD_replicate_eq i.val (by omega)]
          simp only [one_div_one_div]
          ring
        · rw [if_neg h4, if_neg h4]
          by_cases h5 : j.val = i.val + 1
          · rw [if_pos h5, if_pos h5, getD_replicate_eq i.val (by omega), div_div_eq_mul_div, div_one]
            ring
          · rw [if_neg h5, if_neg h5]
            ring

/-- On constant spacings `1/(N-1)`, the non-uniform `natural` right-hand side
is the uniform one scaled by `(N-1)²`. -/
theorem rowNatNU_const (N : ℕ) (hN : 2 ≤ N) (dim : List ℚ) :
    rowNatNU N (List.replicate (N - 1) (1 / ((N - 1 : ℕ) : ℚ))) dim =
      (((N - 1 : ℕ) : ℚ) ^ 2) • rowNatU N dim := by
  funext i
  have hi := i.isLt
  simp only [rowNatNU, rowNatU, Pi.smul_apply, smul_eq_mul]
  by_cases h1 : i.val = 0
  · rw [if_pos h1, if_pos h1, getD_replicate_eq 0 (by omega)]
    rw [div_pow, one_pow, div_div_eq_mul_div, div_one]
    ring
  · rw [if_neg h1, if_neg h1]
    by_cases h2 : i.val = N - 1
    · rw [if_pos h2, if_pos h2, getD_replicate_eq (N - 2) (by omega)]
      rw [div_pow, one_pow, div_div_eq_mul_div, div_one]
      ring
    · rw [if_neg h2, if_neg h2, getD_replicate_eq (i.val - 1) (by omega),
        getD_replicate_eq i.val (by omega)]
      simp only [one_div_one_div]
      ring

/-- On constant spacings the non-uniform Hermite coefficients of the scaled
solution coincide with the uniform ones of the unscaled solution. -/
theorem segCoefDim_const (N : ℕ) (hN : 2 ≤ N) (dim : List ℚ) (x : Fin N → ℚ) :
    segCoefDim N false (List.replicate (N - 1) (1 / ((N - 1 : ℕ) : ℚ))) dim
        (padFn N (((N - 1 : ℕ) : ℚ) • x)) =
      segCoefDim N true (List.replicate (N - 1) (1 / ((N - 1 : ℕ) : ℚ))) dim (padFn N x) := by
  have hα : ((N - 1 : ℕ) : ℚ) ≠ 0 := by
    have : (1 : ℚ) ≤ ((N - 1 : ℕ) : ℚ) := by exact_mod_cast (show 1 ≤ N - 1 by omega)
    linarith
  rw [segCoefDim, segCoefDim]
  apply List.map_congr_left
  intro i hi
  rw [List.mem_range] at hi
  rw [padFn_smul]
  simp only [Bool.false_eq_true, if_false, if_true]
  rw [getD_replicate_eq i hi]
  simp only [List.cons.injEq, and_true, true_and, eq_self_iff_true]
  refine ⟨?_, ?_, ?_⟩
  · rw [mul_one_div, mul_div_cancel_left₀ _ hα]
  · rw [mul_one_div, show 2 * (((N - 1 : ℕ) : ℚ) * padFn N x i) +
        ((N - 1 : ℕ) : ℚ) * padFn N x (i + 1) =
        ((N - 1 : ℕ) : ℚ) * (2 * padFn N x i + padFn N x (i + 1)) by ring,
      mul_div_cancel_left₀ _ hα]
    ring
  · rw [mul_one_div, show ((N - 1 : ℕ) : ℚ) * padFn N x i +
        ((N - 1 : ℕ) : ℚ) * padFn N x (i + 1) =
        ((N - 1 : ℕ) : ℚ) * (padFn N x i + padFn N x (i + 1)) by ring,
      mul_div_cancel_left₀ _ hα]
    ring

/-- Per dimension, the uniform `natural` path and the non-uniform `natural`
path on the normalized constant spacings produce the same result. -/
theorem solveDim_uniform_equiv (N : ℕ) (hN : 2 ≤ N) (dim : List ℚ) :
    (solveDim N true (List.replicate (N - 1) (1 / ((N - 1 : ℕ) : ℚ))) "natural" dim).map
      (fun x => segCoefDim N true (List.replicate (N - 1) (1 / ((N - 1 : ℕ) : ℚ))) dim
        (padFn N x)) =
    (solveDim N false (List.replicate (N - 1) (1 / ((N - 1 : ℕ) : ℚ))) "natural" dim).map
      (fun x => segCoefDim N false (List.replicate (N - 1) (1 / ((N - 1 : ℕ) : ℚ))) dim
        (padFn N x)) := by
  have hα : ((N - 1 : ℕ) : ℚ) ≠ 0 := by
    have : (1 : ℚ) ≤ ((N - 1 : ℕ) : ℚ) := by exact_mod_cast (show 1 ≤ N - 1 by omega)
    linarith
  rw [solveDim, solveDim, if_pos rfl, if_pos rfl]
  simp only [Bool.false_eq_true, if_false, if_true]
  rw [matNatNU_const N hN, rowNatNU_const N hN dim]
  rw [solveLin_smul _ _ _ hα]
  cases hsol : solveLin N (matNatU N) (rowNatU N dim) with
  | none => rfl
  | some x =>
      show Except.ok _ = Except.ok _
      dsimp only
      rw [segCoefDim_const N hN dim x]

/-- C6: building with no spacing vector and building with an explicit
all-equal positive spacing vector produce the same coefficient table (the
two builds may differ only in the `uniform` flag; under `natural` both run
the solve on proportional systems whose solutions give identical Hermite
coefficients). -/
theorem claim_C6 (points : List (List ℚ)) (c : ℚ) (hv : ValidPoints points)
    (hc : 0 < c) :
    (build points none "natural").map (fun s => s.coef) =
      (build points (some (List.replicate (points.length - 1) c)) "natural").map
        (fun s => s.coef) := by
  have hN : 2 ≤ points.length := hv.1
  rw [build, build, if_pos (by simp)]
  have hds1 : (List.replicate (points.length - 1) (1 : ℚ)).map
      (fun x => x / (List.replicate (points.length - 1) (1 : ℚ)).sum) =
      List.replicate (points.length - 1) (1 / ((points.length - 1 : ℕ) : ℚ)) :=
    replicate_normalize _ 1 one_ne_zero
  have hds2 : (List.replicate (points.length - 1) c).map
      (fun x => x / (List.replicate (points.length - 1) c).sum) =
      List.replicate (points.length - 1) (1 / ((points.length - 1 : ℕ) : ℚ)) :=
    replicate_normalize _ c (ne_of_gt hc)
  simp only [buildValid]
  rw [hds1, hds2]
  rw [buildDims_congr _ _ ((List.range (points.getD 0 []).length).map fun d =>
    column points d) (fun d _ => solveDim_uniform_equiv points.length hN d)]
  cases hres : buildDims
      (fun dim => (solveDim points.length false
          (List.replicate (points.length - 1) (1 / ((points.length - 1 : ℕ) : ℚ)))
          "natural" dim).map
        (fun x => segCoefDim points.length false
          (List.replicate (points.length - 1) (1 / ((points.length - 1 : ℕ) : ℚ)))
          dim (padFn points.length x)))
      ((List.range (points.getD 0 []).length).map fun d => column points d) with
  | error e => rfl
  | ok perDim => rfl

def c6Points : List (List ℚ) := [[0], [1], [4]]

theorem claim_C6_witness :
    (build c6Points none "natural").map (fun s => s.coef) =
      (build c6Points (some (List.replicate (c6Points.length - 1) 5)) "natural").map
        (fun s => s.coef) :=
  claim_C6 c6Points 5 (by decide) (by decide)

/-! ### Claim C3: nonsingularity of the spline systems -/

/-- A strictly row-diagonally-dominant rational matrix has nonzero
determinant. -/
theorem det_ne_zero_of_dominant {n : ℕ} (A : Matrix (Fin n) (Fin n) ℚ)
    (h : ∀ k, ∑ j ∈ Finset.univ.erase k, |A k j| < |A k k|) : A.det ≠ 0 := by
  intro hdet
  rcases Matrix.exists_mulVec_eq_zero_iff.mpr hdet with ⟨v, hv0, hAv⟩
  have hne : (Finset.univ : Finset (Fin n)).Nonempty := by
    rcases Function.ne_iff.mp hv0 with ⟨j, _⟩
    exact ⟨j, Finset.mem_univ j⟩
  obtain ⟨k, _, hk⟩ := Finset.exists_max_image Finset.univ (fun k => |v k|) hne
  have hvk : 0 < |v k| := by
    rcases Function.ne_iff.mp hv0 with ⟨j, hj⟩
    have hj' : v j ≠ 0 := by simpa using hj
    have h1 : 0 < |v j| := abs_pos.mpr hj'
    have h2 := hk j (Finset.mem_univ j)
    linarith
  have hrow := congrFun hAv k
  rw [Matrix.mulVec, Matrix.dotProduct] at hrow
  rw [← Finset.add_sum_erase _ _ (Finset.mem_univ k)] at hrow
  have hzero : (0 : Fin n → ℚ) k = 0 := rfl
  rw [hzero] at hrow
  have habs : |A k k| * |v k| = |∑ j ∈ Finset.univ.erase k, A k j * v j| := by
    rw [← abs_mul]
    rw [show A k k * v k = -∑ j ∈ Finset.univ.erase k, A k j * v j by linarith]
    rw [abs_neg]
  have hbound : |∑ j ∈ Finset.univ.erase k, A k j * v j| ≤
      (∑ j ∈ Finset.univ.erase k, |A k j|) * |v k| := by
    calc |∑ j ∈ Finset.univ.erase k, A k j * v j|
        ≤ ∑ j ∈ Finset.univ.erase k, |A k j * v j| := Finset.abs_sum_le_sum_abs _ _
      _ = ∑ j ∈ Finset.univ.erase k, |A k j| * |v j| :=
          Finset.sum_congr rfl fun j _ => abs_mul _ _
      _ ≤ ∑ j ∈ Finset.univ.erase k, |A k j| * |v k| :=
          Finset.sum_le_sum fun j _ =>
            mul_le_mul_of_nonneg_left (hk j (Finset.mem_univ j)) (abs_nonneg _)
      _ = (∑ j ∈ Finset.univ.erase k, |A k j|) * |v k| := by rw [Finset.sum_mul]
  have hdom := h k
  nlinarith [habs, hbound, hvk, hdom]

/-- Sum over `univ.erase k` of a function supported on a single index. -/
theorem erase_sum_single {n : ℕ} (f : Fin n → ℚ) (k a : Fin n) (hak : a ≠ k)
    (h0 : ∀ c, c ≠ k → c ≠ a → f c = 0) :
    ∑ j ∈ Finset.univ.erase k, f j = f a :=
  Finset.sum_eq_single_of_mem a (Finset.mem_erase.mpr ⟨hak, Finset.mem_univ a⟩)
    fun b hb hba => h0 b (Finset.mem_erase.mp hb).1 hba

/-- Sum over `univ.erase k` of a function supported on two indices. -/
theorem erase_sum_pair {n : ℕ} (f : Fin n → ℚ) (k a b : Fin n) (hak : a ≠ k)
    (hbk : b ≠ k) (hab : a ≠ b)
    (h0 : ∀ c, c ≠ k → c ≠ a → c ≠ b → f c = 0) :
    ∑ j ∈ Finset.univ.erase k, f j = f a + f b :=
  Finset.sum_eq_add_of_mem a b (Finset.mem_erase.mpr ⟨hak, Finset.mem_univ a⟩)
    (Finset.mem_erase.mpr ⟨hbk, Finset.mem_univ b⟩) hab
    fun c hc h => h0 c (Finset.mem_erase.mp hc).1 h.1 h.2

/-- The `natural` uniform matrix is strictly diagonally dominant. -/
theorem matNatU_dominant (N : ℕ) (hN : 2 ≤ N) (k : Fin N) :
    ∑ j ∈ Finset.univ.erase k, |matNatU N k j| < |matNatU N k k| := by
  obtain ⟨kv, hkv⟩ := k
  rcases eq_or_ne kv 0 with hk0 | hk0
  · subst hk0
    rw [erase_sum_single (fun j => |matNatU N ⟨0, hkv⟩ j|) _ ⟨1, by omega⟩
        (by simp only [ne_eq, Fin.ext_iff]; omega)
        (fun c hck hc1 => by
          have h1 : c.val ≠ 0 := fun hcv => hck (Fin.ext hcv)
          have h2 : c.val ≠ 1 := fun hcv => hc1 (Fin.ext hcv)
          rw [matNatU]
          simp only [Matrix.of_apply, eq_self_iff_true, if_true, if_neg h1, if_neg h2,
            abs_zero])]
    have f10 : (1 : ℕ) ≠ 0 := by omega
    rw [matNatU]
    simp only [Matrix.of_apply, eq_self_iff_true, if_true, if_neg f10]
    norm_num
  rcases eq_or_ne kv (N - 1) with hkl | hkl
  · subst hkl
    rw [erase_sum_single (fun j => |matNatU N ⟨N - 1, hkv⟩ j|) _ ⟨N - 2, by omega⟩
        (by simp only [ne_eq, Fin.ext_iff]; omega)
        (fun c hck hc2 => by
          have h1 : c.val ≠ N - 2 := fun hcv => hc2 (Fin.ext hcv)
          have h2 : c.val ≠ N - 1 := fun hcv => hck (Fin.ext hcv)
          have f1 : N - 1 ≠ 0 := by omega
          rw [matNatU]
          simp only [Matrix.of_apply, eq_self_iff_true, if_true, if_neg f1, if_neg h1,
            if_neg h2, abs_zero])]
    have f1 : N - 1 ≠ 0 := by omega
    have f2 : N - 1 ≠ N - 2 := by omega
    rw [matNatU]
    simp only [Matrix.of_apply, eq_self_iff_true, if_true, if_neg f1, if_neg f2]
    norm_num
  · have hk1 : 1 ≤ kv := by omega
    have hkN : kv + 1 < N := by omega
    rw [erase_sum_pair (fun j => |matNatU N ⟨kv, hkv⟩ j|) _ ⟨kv - 1, by omega⟩
        ⟨kv + 1, hkN⟩
        (by simp only [ne_eq, Fin.ext_iff]; omega)
        (by simp only [ne_eq, Fin.ext_iff]; omega)
        (by simp only [ne_eq, Fin.ext_iff]; omega)
        (fun c hck hca hcb => by
          have h0 : c.val ≠ kv := fun hcv => hck (Fin.ext hcv)
          have h1 : c.val ≠ kv - 1 := fun hcv => hca (Fin.ext hcv)
          have h2 : c.val ≠ kv + 1 := fun hcv => hcb (Fin.ext hcv)
          rw [matNatU]
          simp only [Matrix.of_apply, if_neg hk0, if_neg hkl, if_neg h1, if_neg h0,
            if_neg h2, abs_zero])]
    have f1 : kv ≠ kv - 1 := by omega
    have f2 : kv + 1 ≠ kv - 1 := by omega
    have f3 : kv + 1 ≠ kv := by omega
    rw [matNatU]
    simp only [Matrix.of_apply, if_neg hk0, if_neg hkl, eq_self_iff_true, if_true,
      if_neg f1, if_neg f2, if_neg f3]
    norm_num

/-- The `natural` non-uniform matrix is strictly diagonally dominant when all
normalized spacings are positive. -/
theorem matNatNU_dominant (N : ℕ) (hN : 2 ≤ N) (dtv : List ℚ)
    (hp : ∀ j, j < N - 1 → 0 < dtv.getD j 0) (k : Fin N) :
    ∑ j ∈ Finset.univ.erase k, |matNatNU N dtv k j| < |matNatNU N dtv k k| := by
  obtain ⟨kv, hkv⟩ := k
  rcases eq_or_ne kv 0 with hk0 | hk0
  · subst hk0
    rw [erase_sum_single (fun j => |matNatNU N dtv ⟨0, hkv⟩ j|) _ ⟨1, by omega⟩
        (by simp only [ne_eq, Fin.ext_iff]; omega)
        (fun c hck hc1 => by
          have h1 : c.val ≠ 0 := fun hcv => hck (Fin.ext hcv)
          have h2 : c.val ≠ 1 := fun hcv => hc1 (Fin.ext hcv)
          rw [matNatNU]
          simp only [Matrix.of_apply, eq_self_iff_true, if_true, if_neg h1, if_neg h2,
            abs_zero])]
    have f10 : (1 : ℕ) ≠ 0 := by omega
    have hd0 : 0 < dtv.getD 0 0 := hp 0 (by omega)
    rw [matNatNU]
    simp only [Matrix.of_apply, eq_self_iff_true, if_true, if_neg f10]
    rw [abs_of_pos (by positivity), abs_of_pos (by positivity)]
    have he : (2 : ℚ) / dtv.getD 0 0 - 1 / dtv.getD 0 0 = 1 / dtv.getD 0 0 := by ring
    have hq : (0 : ℚ) < 1 / dtv.getD 0 0 := by positivity
    linarith
  rcases eq_or_ne kv (N - 1) with hkl | hkl
  · subst hkl
    rw [erase_sum_single (fun j => |matNatNU N dtv ⟨N - 1, hkv⟩ j|) _ ⟨N - 2, by omega⟩
        (by simp only [ne_eq, Fin.ext_iff]; omega)
        (fun c hck hc2 => by
          have h1 : c.val ≠ N - 2 := fun hcv => hc2 (Fin.ext hcv)
          have h2 : c.val ≠ N - 1 := fun hcv => hck (Fin.ext hcv)
          have f1 : N - 1 ≠ 0 := by omega
          rw [matNatNU]
          simp only [Matrix.of_apply, eq_self_iff_true, if_true, if_neg f1, if_neg h1,
            if_neg h2, abs_zero])]
    have f1 : N - 1 ≠ 0 := by omega
    have f2 : N - 1 ≠ N - 2 := by omega
    have hd0 : 0 < dtv.getD (N - 2) 0 := hp (N - 2) (by omega)
    rw [matNatNU]
    simp only [Matrix.of_apply, eq_self_iff_true, if_true, if_neg f1, if_neg f2]
    rw [abs_of_pos (by positivity), abs_of_pos (by positivity)]
    have he : (2 : ℚ) / dtv.getD (N - 2) 0 - 1 / dtv.getD (N - 2) 0 =
        1 / dtv.getD (N - 2) 0 := by ring
    have hq : (0 : ℚ) < 1 / dtv.getD (N - 2) 0 := by positivity
    linarith
  · have hk1 : 1 ≤ kv := by omega
    have hkN : kv + 1 < N := by omega
    rw [erase_sum_pair (fun j => |matNatNU N dtv ⟨kv, hkv⟩ j|) _ ⟨kv - 1, by omega⟩
        ⟨kv + 1, hkN⟩
        (by simp only [ne_eq, Fin.ext_iff]; omega)
        (by simp only [ne_eq, Fin.ext_iff]; omega)
        (by simp only [ne_eq, Fin.ext_iff]; omega)
        (fun c hck hca hcb => by
          have h0 : c.val ≠ kv := fun hcv => hck (Fin.ext hcv)
          have h1 : c.val ≠ kv - 1 := fun hcv => hca (Fin.ext hcv)
          have h2 : c.val ≠ kv + 1 := fun hcv => hcb (Fin.ext hcv)
          rw [matNatNU]
          simp only [Matrix.of_apply, if_neg hk0, if_neg hkl, if_neg h1, if_neg h0,
            if_neg h2, abs_zero])]
    have f1 : kv ≠ kv - 1 := by omega
    have f2 : kv + 1 ≠ kv - 1 := by omega
    have f3 : kv + 1 ≠ kv := by omega
    have hda : 0 < dtv.getD (kv - 1) 0 := hp (kv - 1) (by omega)
    have hdb : 0 < dtv.getD kv 0 := hp kv (by omega)
    rw [matNatNU]
    simp only [Matrix.of_apply, if_neg hk0, if_neg hkl, eq_self_iff_true, if_true,
      if_neg f1, if_neg f2, if_neg f3]
    rw [abs_of_pos (by positivity), abs_of_pos (by positivity),
      abs_of_pos (by positivity)]
    have hqa : (0 : ℚ) < 1 / dtv.getD (kv - 1) 0 := by positivity
    have hqb : (0 : ℚ) < 1 / dtv.getD kv 0 := by positivity
    linarith

/-- The `natural` non-uniform system is nonsingular for positive spacings. -/
theorem matNatNU_det_ne_zero (N : ℕ) (hN : 2 ≤ N) (dtv : List ℚ)
    (hp : ∀ j, j < N - 1 → 0 < dtv.getD j 0) : (matNatNU N dtv).det ≠ 0 :=
  det_ne_zero_of_dominant _ (matNatNU_dominant N hN dtv hp)

/-- The `natural` uniform system is nonsingular. -/
theorem matNatU_det_ne_zero (N : ℕ) (hN : 2 ≤ N) : (matNatU N).det ≠ 0 :=
  det_ne_zero_of_dominant _ (matNatU_dominant N hN)

/-- The solution sequence of the recurrence `y(k+2) = 4 y(k+1) - y k` with
seed values `2, 1` (the ratio sequence of any null vector of the `d_equal`
system). -/
def dseq : ℕ → ℚ
  | 0 => 2
  | 1 => 1
  | (k + 2) => 4 * dseq (k + 1) - dseq k

theorem dseq_pos_mono : ∀ k, 1 ≤ k → 0 < dseq k ∧ dseq k < dseq (k + 1) := by
  intro k
  induction k with
  | zero => intro h; omega
  | succ n ihn =>
    intro _
    rcases Nat.eq_zero_or_pos n with hn | hn
    · subst hn
      refine ⟨by norm_num [dseq], ?_⟩
      have h1 : dseq 1 = 1 := rfl
      have h2 : dseq 2 = 4 * dseq 1 - dseq 0 := by simp [dseq]
      have h0 : dseq 0 = 2 := rfl
      rw [h1, h2, h1, h0]
      norm_num
    · obtain ⟨hpos, hlt⟩ := ihn hn
      refine ⟨by linarith, ?_⟩
      have h2 : dseq (n + 2) = 4 * dseq (n + 1) - dseq n := by simp [dseq]
      rw [h2]
      linarith

theorem dseq_lt_of_lt : ∀ d a, 1 ≤ a → dseq a < dseq (a + d + 1) := by
  intro d
  induction d with
  | zero => intro a ha; exact (dseq_pos_mono a ha).2
  | succ d ihd =>
    intro a ha
    have h1 := ihd a ha
    have h2 := (dseq_pos_mono (a + d + 1) (by omega)).2
    have he : a + (d + 1) + 1 = a + d + 1 + 1 := by omega
    rw [he]
    linarith

/-- Any sequence satisfying the recurrence `y(k+2) = 4 y(k+1) - y k` on
`0..L` whose ends obey `y 0 = y 2` and `y (L-2) = y L` vanishes on `0..L`. -/
theorem dEq_rec_zero (L : ℕ) (hL : 3 ≤ L) (y : ℕ → ℚ)
    (h02 : y 0 = y 2)
    (hLy : y (L - 2) = y L)
    (hrec : ∀ m, m + 2 ≤ L → y (m + 2) = 4 * y (m + 1) - y m) :
    ∀ k, k ≤ L → y k = 0 := by
  have hlin : ∀ k, k ≤ L → y k = dseq k * y 1 := by
    intro k
    induction k using Nat.strong_induction_on with
    | _ k ih =>
      rcases k with _ | k1
      · intro _
        have h2 : y 2 = 4 * y 1 - y 0 := hrec 0 (by omega)
        have hd : dseq 0 = (2 : ℚ) := rfl
        rw [hd]
        linarith [h02, h2]
      · rcases k1 with _ | m
        · intro _
          have hd : dseq 1 = (1 : ℚ) := rfl
          rw [hd]
          ring
        · intro hkL
          have h1 := ih (m + 1) (by omega) (by omega)
          have h0 := ih m (by omega) (by omega)
          have hr := hrec m hkL
          have hd : dseq (m + 2) = 4 * dseq (m + 1) - dseq m := by simp [dseq]
          rw [hr, h1, h0, hd]
          ring
  have hlt : dseq (L - 2) < dseq L := by
    have h := dseq_lt_of_lt 1 (L - 2) (by omega)
    have he : L - 2 + 1 + 1 = L := by omega
    rwa [he] at h
  have hy1 : y 1 = 0 := by
    have ha := hlin (L - 2) (by omega)
    have hb := hlin L le_rfl
    have hmul : (dseq L - dseq (L - 2)) * y 1 = 0 := by
      rw [hLy] at ha
      rw [hb] at ha
      linarith
    rcases mul_eq_zero.mp hmul with h | h
    · exact absurd h (sub_ne_zero.mpr (ne_of_gt hlt))
    · exact h
  intro k hk
  rw [hlin k hk, hy1, mul_zero]

/-- Row 0 of the `d_equal` system with zero right-hand side. -/
theorem matDEq_null_row0 {N : ℕ} (hN : 4 ≤ N) (v : Fin N → ℚ)
    (heq : (matDEq N).mulVec v = 0) : v ⟨0, by omega⟩ = v ⟨2, by omega⟩ := by
  have h := congrFun heq ⟨0, by omega⟩
  rw [Matrix.mulVec, Matrix.dotProduct] at h
  have h0 : (0 : Fin N → ℚ) ⟨0, by omega⟩ = 0 := rfl
  rw [h0] at h
  rw [sum_two_of_support (fun j => matDEq N ⟨0, by omega⟩ j * v j) ⟨0, by omega⟩
      ⟨2, by omega⟩ (by simp only [ne_eq, Fin.ext_iff]; omega)
      (fun c hc0 hc2 => by
        have h1 : c.val ≠ 0 := fun hcv => hc0 (Fin.ext hcv)
        have h2 : c.val ≠ 2 := fun hcv => hc2 (Fin.ext hcv)
        rw [matDEq]
        simp only [Matrix.of_apply, eq_self_iff_true, if_true, if_neg h1, if_neg h2]
        ring)] at h
  have f1 : (2 : ℕ) ≠ 0 := by omega
  rw [matDEq] at h
  simp only [Matrix.of_apply, eq_self_iff_true, if_true, if_neg f1] at h
  linarith [h]

/-- The last row of the `d_equal` system with zero right-hand side. -/
theorem matDEq_null_rowLast {N : ℕ} (hN : 4 ≤ N) (v : Fin N → ℚ)
    (heq : (matDEq N).mulVec v = 0) :
    v ⟨N - 3, by omega⟩ = v ⟨N - 1, by omega⟩ := by
  have h := congrFun heq ⟨N - 1, by omega⟩
  rw [Matrix.mulVec, Matrix.dotProduct] at h
  have h0 : (0 : Fin N → ℚ) ⟨N - 1, by omega⟩ = 0 := rfl
  rw [h0] at h
  rw [sum_two_of_support (fun j => matDEq N ⟨N - 1, by omega⟩ j * v j)
      ⟨N - 3, by omega⟩ ⟨N - 1, by omega⟩ (by simp only [ne_eq, Fin.ext_iff]; omega)
      (fun c hcA hcB => by
        have h1 : c.val ≠ N - 3 := fun hcv => hcA (Fin.ext hcv)
        have h2 : c.val ≠ N - 1 := fun hcv => hcB (Fin.ext hcv)
        have f1 : N - 1 ≠ 0 := by omega
        rw [matDEq]
        simp only [Matrix.of_apply, eq_self_iff_true, if_true, if_neg f1, if_neg h1,
          if_neg h2]
        ring)] at h
  have f1 : N - 1 ≠ 0 := by omega
  have f2 : N - 1 ≠ N - 3 := by omega
  rw [matDEq] at h
  simp only [Matrix.of_apply, eq_self_iff_true, if_true, if_neg f1, if_neg f2] at h
  linarith [h]

/-- An interior row of the `d_equal` system with zero right-hand side. -/
theorem matDEq_null_rowMid {N : ℕ} (hN : 4 ≤ N) (v : Fin N → ℚ) (kv : ℕ)
    (hk1 : 1 ≤ kv) (hk2 : kv ≤ N - 2) (heq : (matDEq N).mulVec v = 0) :
    v ⟨kv - 1, by omega⟩ + 4 * v ⟨kv, by omega⟩ + v ⟨kv + 1, by omega⟩ = 0 := by
  have hk0 : kv ≠ 0 := by omega
  have hkl : kv ≠ N - 1 := by omega
  have h := congrFun heq ⟨kv, by omega⟩
  rw [Matrix.mulVec, Matrix.dotProduct] at h
  have h0 : (0 : Fin N → ℚ) ⟨kv, by omega⟩ = 0 := rfl
  rw [h0] at h
  rw [sum_three_of_support (fun j => matDEq N ⟨kv, by omega⟩ j * v j)
      ⟨kv - 1, by omega⟩ ⟨kv, by omega⟩ ⟨kv + 1, by omega⟩
      (by simp only [ne_eq, Fin.ext_iff]; omega)
      (by simp only [ne_eq, Fin.ext_iff]; omega)
      (by simp only [ne_eq, Fin.ext_iff]; omega)
      (fun c hca hcb hcc => by
        have h1 : c.val ≠ kv - 1 := fun hcv => hca (Fin.ext hcv)
        have h2 : c.val ≠ kv := fun hcv => hcb (Fin.ext hcv)
        have h3 : c.val ≠ kv + 1 := fun hcv => hcc (Fin.ext hcv)
        rw [matDEq]
        simp only [Matrix.of_apply, if_neg hk0, if_neg hkl, if_neg h1, if_neg h2,
          if_neg h3]
        ring)] at h
  have f1 : kv ≠ kv - 1 := by omega
  have f2 : kv + 1 ≠ kv - 1 := by omega
  have f3 : kv + 1 ≠ kv := by omega
  rw [matDEq] at h
  simp only [Matrix.of_apply, if_neg hk0, if_neg hkl, eq_self_iff_true, if_true,
    if_neg f1, if_neg f2, if_neg f3] at h
  linarith [h]

/-- The `d_equal` system is nonsingular once `N ≥ 4`. -/
theorem matDEq_det_ne_zero (N : ℕ) (hN : 4 ≤ N) : (matDEq N).det ≠ 0 := by
  intro hdet
  rcases Matrix.exists_mulVec_eq_zero_iff.mpr hdet with ⟨v, hv0, hAv⟩
  have hzero : ∀ k, k ≤ N - 1 → (fun k => (-1 : ℚ) ^ k * padFn N v k) k = 0 := by
    refine dEq_rec_zero (N - 1) (by omega) _ ?_ ?_ ?_
    · show (-1 : ℚ) ^ 0 * padFn N v 0 = (-1 : ℚ) ^ 2 * padFn N v 2
      rw [padFn_eq v 0 (by omega), padFn_eq v 2 (by omega)]
      rw [matDEq_null_row0 hN v hAv]
      ring
    · show (-1 : ℚ) ^ (N - 1 - 2) * padFn N v (N - 1 - 2) =
        (-1 : ℚ) ^ (N - 1) * padFn N v (N - 1)
      have he1 : N - 1 - 2 = N - 3 := by omega
      have he2 : N - 1 = (N - 3) + 2 := by omega
      rw [he1, he2, padFn_eq v (N - 3) (by omega), padFn_eq v ((N - 3) + 2) (by omega)]
      have he3 : (⟨(N - 3) + 2, by omega⟩ : Fin N) = ⟨N - 1, by omega⟩ := by
        simp only [Fin.ext_iff]
        omega
      rw [he3, matDEq_null_rowLast hN v hAv]
      ring
    · intro m hm
      show (-1 : ℚ) ^ (m + 2) * padFn N v (m + 2) =
        4 * ((-1 : ℚ) ^ (m + 1) * padFn N v (m + 1)) - (-1 : ℚ) ^ m * padFn N v m
      rw [padFn_eq v (m + 2) (by omega), padFn_eq v (m + 1) (by omega),
        padFn_eq v m (by omega)]
      have hrow := matDEq_null_rowMid hN v (m + 1) (by omega) (by omega) hAv
      have he1 : (⟨m + 1 - 1, by omega⟩ : Fin N) = ⟨m, by omega⟩ := by
        simp only [Fin.ext_iff]
        omega
      have he2 : (⟨m + 1 + 1, by omega⟩ : Fin N) = ⟨m + 2, by omega⟩ :=
        Fin.ext rfl
      rw [he1, he2] at hrow
      linear_combination ((-1 : ℚ)) ^ m * hrow
  apply hv0
  funext j
  have hj := hzero j.val (by omega)
  have hpow : ((-1 : ℚ)) ^ j.val ≠ 0 := pow_ne_zero _ (by norm_num)
  have hv : padFn N v j.val = 0 := by
    rcases mul_eq_zero.mp hj with h | h
    · exact absurd h hpow
    · exact h
  rw [padFn_eq v j.val j.isLt] at hv
  have hjj : (⟨j.val, j.isLt⟩ : Fin N) = j := Fin.ext rfl
  rw [hjj] at hv
  exact hv

/-- An unrecognized boundary condition raises. -/
theorem solveDim_invalid (N : ℕ) (uniform : Bool) (dtv dim : List ℚ) (bc : String)
    (h1 : bc ≠ "natural") (h2 : bc ≠ "d_equal") :
    solveDim N uniform dtv bc dim = .error .invalidBoundaryCondition := by
  rw [solveDim, if_neg h1, if_neg h2]

/-- `d_equal` with fewer than four points raises (`assert(self.N > 3)`). -/
theorem solveDim_dEqual_small (N : ℕ) (uniform : Bool) (dtv dim : List ℚ)
    (h3 : N ≤ 3) :
    solveDim N uniform dtv "d_equal" dim = .error .insufficientPoints := by
  rw [solveDim, if_neg (by decide), if_pos rfl, if_pos h3]

/-- A `natural` solve always succeeds (the system is nonsingular) provided
the normalized spacings are positive in the non-uniform case. -/
theorem solveDim_natural_ok (N : ℕ) (uniform : Bool) (dtv : List ℚ) (dim : List ℚ)
    (hN : 2 ≤ N) (hp : uniform = false → ∀ j, j < N - 1 → 0 < dtv.getD j 0) :
    ∃ x, solveDim N uniform dtv "natural" dim = .ok x := by
  cases uniform with
  | true =>
    have hx := solveLin_isSome_of_det_ne_zero N (matNatU N) (rowNatU N dim)
      (matNatU_det_ne_zero N hN)
    rw [solveDim, if_pos rfl, if_pos rfl, if_pos rfl, hx]
    exact ⟨_, rfl⟩
  | false =>
    have hx := solveLin_isSome_of_det_ne_zero N (matNatNU N dtv) (rowNatNU N dtv dim)
      (matNatNU_det_ne_zero N hN dtv (hp rfl))
    rw [solveDim, if_pos rfl, if_neg (by decide), if_neg (by decide), hx]
    exact ⟨_, rfl⟩

/-- A uniform `d_equal` solve succeeds once `N ≥ 4`. -/
theorem solveDim_dEqual_ok (N : ℕ) (dtv : List ℚ) (dim : List ℚ) (hN : 4 ≤ N) :
    ∃ x, solveDim N true dtv "d_equal" dim = .ok x := by
  have hx := solveLin_isSome_of_det_ne_zero N (matDEq N) (rowDEq N dim)
    (matDEq_det_ne_zero N hN)
  rw [solveDim, if_neg (by decide), if_pos rfl, if_neg (by omega),
    if_neg (by decide), hx]
  exact ⟨_, rfl⟩

/-- If every dimension's solve succeeds, the loop succeeds. -/
theorem buildDims_ok_of_forall (f : List ℚ → Except SplineError (List (List ℚ)))
    (l : List (List ℚ)) (h : ∀ d ∈ l, ∃ c, f d = .ok c) :
    ∃ ys, buildDims f l = .ok ys := by
  induction l with
  | nil => exact ⟨[], rfl⟩
  | cons d rest ih =>
    obtain ⟨c, hc⟩ := h d (by simp)
    obtain ⟨ys, hys⟩ := ih fun d' hd' => h d' (by simp [hd'])
    exact ⟨c :: ys, by rw [buildDims, hc, hys]⟩

/-- Entries of the normalized spacing vector are positive when the raw
spacings are. -/
theorem dtv_getD_pos_of (ds : List ℚ) (hne : 0 < ds.length)
    (hpos : ∀ x ∈ ds, 0 < x) (j : ℕ) (hj : j < ds.length) :
    0 < (ds.map fun d => d / ds.sum).getD j 0 := by
  have hsum : 0 < ds.sum := by
    cases ds with
    | nil => simp at hne
    | cons a rest =>
        have ha : 0 < a := hpos a (by simp)
        have hrest : 0 ≤ rest.sum :=
          List.sum_nonneg fun x hx => le_of_lt (hpos x (by simp [hx]))
        simp only [List.sum_cons]
        linarith
  have hjm : j < (ds.map fun d => d / ds.sum).length := by simpa using hj
  rw [List.getD_eq_getElem _ _ hjm, List.getElem_map]
  have hmem : ds.get ⟨j, hj⟩ ∈ ds := List.get_mem ds j hj
  rw [List.get_eq_getElem] at hmem
  exact div_pos (hpos _ hmem) hsum

/-- The constructor succeeds for `natural` with positive spacings. -/
theorem buildValid_natural_ok (points : List (List ℚ)) (ds : List ℚ) (uniform : Bool)
    (hN : 2 ≤ points.length)
    (hp : uniform = false → ∀ j, j < points.length - 1 →
      0 < (ds.map fun d => d / ds.sum).getD j 0) :
    ∃ s, buildValid points ds uniform "natural" = .ok s := by
  obtain ⟨ys, hys⟩ := buildDims_ok_of_forall
    (fun dim => (solveDim points.length uniform (ds.map fun d => d / ds.sum)
        "natural" dim).map
      fun x => segCoefDim points.length uniform (ds.map fun d => d / ds.sum) dim
        (padFn points.length x))
    ((List.range (points.getD 0 []).length).map fun d => column points d)
    (fun dim _ => by
      dsimp only
      obtain ⟨x, hx⟩ := solveDim_natural_ok points.length uniform
        (ds.map fun d => d / ds.sum) dim hN hp
      rw [hx]
      exact ⟨_, rfl⟩)
  rw [buildValid, hys]
  exact ⟨_, rfl⟩

/-- The constructor succeeds for uniform `d_equal` with `N ≥ 4`. -/
theorem buildValid_dEqual_ok (points : List (List ℚ)) (ds : List ℚ)
    (hN : 4 ≤ points.length) :
    ∃ s, buildValid points ds true "d_equal" = .ok s := by
  obtain ⟨ys, hys⟩ := buildDims_ok_of_forall
    (fun dim => (solveDim points.length true (ds.map fun d => d / ds.sum)
        "d_equal" dim).map
      fun x => segCoefDim points.length true (ds.map fun d => d / ds.sum) dim
        (padFn points.length x))
    ((List.range (points.getD 0 []).length).map fun d => column points d)
    (fun dim _ => by
      dsimp only
      obtain ⟨x, hx⟩ := solveDim_dEqual_ok points.length
        (ds.map fun d => d / ds.sum) dim hN
      rw [hx]
      exact ⟨_, rfl⟩)
  rw [buildValid, hys]
  exact ⟨_, rfl⟩

/-- Every 4-list of the coefficient table has exactly the four Hermite
coefficients. -/
theorem coefEntry_length {points : List (List ℚ)} {dists : Option (List ℚ)}
    {bc : String} {s : Spline} (hb : build points dists bc = .ok s) (d : ℕ)
    (hd : d < s.M) (i : ℕ) (hi : i < points.length - 1) :
    (coefEntry s i d).length = 4 := by
  obtain ⟨dv, hf⟩ := coefEntry_formula hb d hd
  rw [hf i hi]
  cases s.uniform <;> simp

/-- C3 (counterexample): the spec presents the error conditions as
unordered, with "fails with InvalidBoundaryCondition if and only if the
bc_type tag is not supported"; but the spacing-length assert (line 55) runs
before the bc_type dispatch (line 66), so an unrecognized tag together with
a wrong-length spacing vector fails with DimensionMismatch, not
InvalidBoundaryCondition — and likewise `d_equal` with a wrong-length
spacing fails with DimensionMismatch, not InsufficientPoints. -/
theorem claim_C3_counterexample :
    ("bogus" ≠ "natural" ∧ "bogus" ≠ "d_equal") ∧
    build [[0], [1], [2]] (some [1]) "bogus" = .error .dimensionMismatch ∧
    build [[0], [1], [2]] (some [1]) "bogus" ≠ .error .invalidBoundaryCondition ∧
    build [[0], [1], [2]] (some [1]) "d_equal" = .error .dimensionMismatch ∧
    build [[0], [1], [2]] (some [1]) "d_equal" ≠ .error .insufficientPoints := by
  decide

/-- C3 (amended): construction checks are ordered. A supplied spacing vector
of wrong length fails with DimensionMismatch regardless of the boundary
condition; under a correct (or absent) spacing, construction fails with
InvalidBoundaryCondition iff the tag is unrecognized; `d_equal` fails with
InsufficientPoints when `N < 4` or any spacing vector was supplied; in all
remaining cases construction succeeds with the full `(N-1) × M × 4`
coefficient table. -/
theorem claim_C3_amended (points : List (List ℚ)) (dists : Option (List ℚ))
    (bc : String) (hv : ValidPoints points)
    (hpos : ∀ ds, dists = some ds → ∀ x ∈ ds, 0 < x) :
    (∀ ds, dists = some ds → ds.length ≠ points.length - 1 →
      build points dists bc = .error .dimensionMismatch) ∧
    ((∀ ds, dists = some ds → ds.length = points.length - 1) →
      (build points dists bc = .error .invalidBoundaryCondition ↔
        (bc ≠ "natural" ∧ bc ≠ "d_equal")) ∧
      (bc = "d_equal" → (points.length < 4 ∨ dists ≠ none) →
        build points dists bc = .error .insufficientPoints) ∧
      ((bc = "natural" ∨ (bc = "d_equal" ∧ 4 ≤ points.length ∧ dists = none)) →
        ∃ s, build points dists bc = .ok s ∧
          s.M = (points.getD 0 []).length ∧
          s.coef.length = points.length - 1 ∧
          (∀ i, i < points.length - 1 → (s.coef.getD i []).length = s.M) ∧
          (∀ i, i < points.length - 1 → ∀ d, d < s.M →
            (coefEntry s i d).length = 4))) := by
  obtain ⟨hN, hM, hrows⟩ := hv
  constructor
  · rintro ds rfl hne
    rw [build, if_neg hne]
  · intro hlen
    have hok_nat : bc = "natural" → ∃ s, build points dists bc = .ok s := by
      rintro rfl
      cases hdists : dists with
      | none =>
        obtain ⟨s, hs⟩ := buildValid_natural_ok points
          (List.replicate (points.length - 1) 1) true hN
          (fun h => absurd h (by decide))
        exact ⟨s, hs⟩
      | some ds =>
        obtain ⟨s, hs⟩ := buildValid_natural_ok points ds false hN
          (fun _ j hj => dtv_getD_pos_of ds (by rw [hlen ds hdists]; omega)
            (hpos ds hdists) j (by rw [hlen ds hdists]; omega))
        exact ⟨s, by rw [build, if_pos (hlen ds hdists)]; exact hs⟩
    have hok_deq : bc = "d_equal" → 4 ≤ points.length → dists = none →
        ∃ s, build points dists bc = .ok s := by
      rintro rfl h4 rfl
      obtain ⟨s, hs⟩ := buildValid_dEqual_ok points
        (List.replicate (points.length - 1) 1) h4
      exact ⟨s, hs⟩
    have herr_deq : bc = "d_equal" → (points.length < 4 ∨ dists ≠ none) →
        build points dists bc = .error .insufficientPoints := by
      rintro rfl hcond
      cases hdists : dists with
      | some ds =>
        rw [build, if_pos (hlen ds hdists)]
        exact buildValid_error_of_head hM (solveDim_dEqual_nonuniform _ _ _)
      | none =>
        rcases hcond with hlt | hne
        · exact buildValid_error_of_head hM
            (solveDim_dEqual_small _ _ _ _ (by omega))
        · exact absurd hdists hne
    have herr_ibc : bc ≠ "natural" → bc ≠ "d_equal" →
        build points dists bc = .error .invalidBoundaryCondition := by
      intro h1 h2
      cases hdists : dists with
      | none =>
        exact buildValid_error_of_head hM (solveDim_invalid _ _ _ _ _ h1 h2)
      | some ds =>
        rw [build, if_pos (hlen ds hdists)]
        exact buildValid_error_of_head hM (solveDim_invalid _ _ _ _ _ h1 h2)
    refine ⟨⟨?_, ?_⟩, herr_deq, ?_⟩
    · intro hI
      constructor
      · intro hbc
        obtain ⟨s, hs⟩ := hok_nat hbc
        rw [hs] at hI
        exact Except.noConfusion hI
      · intro hbc
        by_cases h4 : 4 ≤ points.length
        · by_cases hdn : dists = none
          · obtain ⟨s, hs⟩ := hok_deq hbc h4 hdn
            rw [hs] at hI
            exact Except.noConfusion hI
          · have h := herr_deq hbc (Or.inr hdn)
            rw [h] at hI
            injection hI with h'
            exact SplineError.noConfusion h'
        · have h := herr_deq hbc (Or.inl (by omega))
          rw [h] at hI
          injection hI with h'
          exact SplineError.noConfusion h'
    · rintro ⟨h1, h2⟩
      exact herr_ibc h1 h2
    · intro hsucc
      have hexists : ∃ s, build points dists bc = .ok s := by
        rcases hsucc with hbc | ⟨hbc, h4, hdn⟩
        · exact hok_nat hbc
        · exact hok_deq hbc h4 hdn
      obtain ⟨s, hs⟩ := hexists
      obtain ⟨hsN, hsM, _, hclen, hrowlen⟩ := build_ok_fields hs
      refine ⟨s, hs, hsM, hclen, hrowlen, ?_⟩
      intro i hi d hd
      exact coefEntry_length hs d hd i hi

/-- C3 (witness): the success branch of the amended claim at five 1-D points
with the `d_equal` boundary condition and no spacing vector. -/
theorem claim_C3_witness :
    ValidPoints [[0], [1], [2], [3], [4]] ∧
    (∃ s, build [[0], [1], [2], [3], [4]] none "d_equal" = .ok s ∧
      s.M = 1 ∧ s.coef.length = 4 ∧
      (∀ i, i < 4 → (s.coef.getD i []).length = s.M) ∧
      (∀ i, i < 4 → ∀ d, d < s.M → (coefEntry s i d).length = 4)) := by
  refine ⟨by decide, ?_⟩
  have h := claim_C3_amended [[0], [1], [2], [3], [4]] none "d_equal"
    (by decide) (fun ds hds => Option.noConfusion hds)
  exact (h.2 (fun ds hds => Option.noConfusion hds)).2.2
    (Or.inr ⟨rfl, by decide, rfl⟩)

end CubicSpline

